import Mathlib

/-!
Model and verified properties of the free-list memory allocator `memory.c`.

The allocator keeps a singly linked list of block headers (`freeNode`) that
live inside the memory they describe.  The model below follows `memory.c`
function by function.

* Addresses and sizes are `uintptr_t`: natural numbers with every arithmetic
  result reduced modulo `W = 2 ^ 64`.  `NULL` is address `0`.
* Memory is an array of bytes.  A header occupies 16 of them: the field `size`
  is the little-endian word in its first eight bytes and `next` the word in its
  last eight, so two headers less than 16 bytes apart share bytes and a store
  into one changes what the other reads.  Reading a place where the allocator
  never stored a header yields whatever the bytes there hold.
* Dereferencing `NULL` is the outcome `Fault.nullDeref`; a loop that has not
  finished within the given number of iterations is `Fault.outOfFuel`.
* The host allocator `malloc` is a queue of answers (`0` is a failed call).
-/

namespace MemAlloc

/-- Modulus of `uintptr_t` arithmetic on the 64-bit target. -/
def W : Nat := 2 ^ 64

/-- Addition of two `uintptr_t` values. -/
def addW (a b : Nat) : Nat := (a + b) % W

/-- Subtraction of two `uintptr_t` values. -/
def subW (a b : Nat) : Nat := (a + W - b % W) % W

/-- Modelled from the spec: `mem_impl.h` is not among the sources, so its two
constants are parameters: `NODESIZE` (the spec's `HEADER_SIZE`) and `MINCHUNK`
(the spec's `MIN_SPLIT`). -/
structure Params where
  NODESIZE : Nat
  MINCHUNK : Nat

/-- The reference sizing used for concrete runs: a 16-byte header (two 8-byte
fields) and a 16-byte minimum remainder. -/
def refParams : Params := ⟨16, 16⟩

/-- Growth quantum, `#define EXPAND_LIST_SIZE 8192`. -/
def EXPAND_LIST_SIZE : Nat := 8192

/-- Modelled from the spec: the record `freeNode` is declared in the absent
`mem_impl.h`; `memory.c` uses exactly its fields `size` and `next`. -/
structure freeNode where
  size : Nat
  next : Nat

/-- Memory: one byte per address. -/
structure Memory where
  byte : Nat → Nat

/-- The 8-byte little-endian `uintptr_t` stored at the bytes `a .. a + 7`. -/
def rd64 (m : Memory) (a : Nat) : Nat :=
  m.byte a % 256 + 256 * (m.byte (a + 1) % 256 + 256 * (m.byte (a + 2) % 256 +
    256 * (m.byte (a + 3) % 256 + 256 * (m.byte (a + 4) % 256 +
    256 * (m.byte (a + 5) % 256 + 256 * (m.byte (a + 6) % 256 +
    256 * (m.byte (a + 7) % 256)))))))

/-- Memory after the 8-byte little-endian store of `v` at the bytes
`a .. a + 7`; every other byte is unchanged. -/
def wr64 (m : Memory) (a v : Nat) : Memory :=
  ⟨fun x => if a ≤ x ∧ x < a + 8 then (v / 256 ^ (x - a)) % 256 else m.byte x⟩

/-- The header a pointer `a` designates: the 16 bytes `a .. a + 15` read as a
`freeNode`, `size` in the first eight bytes and `next` in the last eight (the
order in which the spec lists the fields of the Block Header). -/
def Memory.node (m : Memory) (a : Nat) : freeNode := ⟨rd64 m a, rd64 m (a + 8)⟩

instance : CoeFun Memory (fun _ => Nat → freeNode) := ⟨Memory.node⟩

/-- Ways in which a call does not return. -/
inductive Fault where
  | nullDeref
  | outOfFuel
  deriving DecidableEq, Repr

/-- The process-wide state: memory, the globals `freelist` and `totalmalloc`,
and the answers the host allocator will give to the coming `malloc` calls. -/
structure State where
  mem : Memory
  freelist : Nat
  totalmalloc : Nat
  host : List Nat

/-- Read of `a->size`. -/
def rdSize (m : Memory) (a : Nat) : Except Fault Nat :=
  if a = 0 then .error .nullDeref else .ok (m a).size

/-- Read of `a->next`. -/
def rdNext (m : Memory) (a : Nat) : Except Fault Nat :=
  if a = 0 then .error .nullDeref else .ok (m a).next

/-- Memory after the store `a->size = v` (for `a` not `NULL`): the bytes
`a .. a + 7`. -/
def setSize (m : Memory) (a v : Nat) : Memory := wr64 m a v

/-- Memory after the store `a->next = v` (for `a` not `NULL`): the bytes
`a + 8 .. a + 15`. -/
def setNext (m : Memory) (a v : Nat) : Memory := wr64 m (a + 8) v

/-- Store `a->size = v`. -/
def wrSize (m : Memory) (a v : Nat) : Except Fault Memory :=
  if a = 0 then .error .nullDeref else .ok (setSize m a v)

/-- Store `a->next = v`. -/
def wrNext (m : Memory) (a v : Nat) : Except Fault Memory :=
  if a = 0 then .error .nullDeref else .ok (setNext m a v)

/-- The function `makeNewNode(totalSize, next, addr)`: the new memory and the
returned pointer (`NULL` and no store when `addr` is `NULL`). -/
def makeNewNode (m : Memory) (totalSize next addr : Nat) : Memory × Nat :=
  if addr = 0 then (m, 0)
  else (setSize (setNext m addr next) addr totalSize, addr)

/-- The function `splitNode(curr, sizeReq)` (lines 110-115): the memory with
the remainder header stored, and the pointer to that header. -/
def splitNode (P : Params) (m : Memory) (curr sizeReq : Nat) :
    Except Fault (Memory × Nat) := do
  let cs ← rdSize m curr
  let newNodeSize := subW (subW (subW cs sizeReq) P.NODESIZE) 1
  let newNodeAddr := addW (addW (addW curr P.NODESIZE) sizeReq) 1
  let cn ← rdNext m curr
  pure (makeNewNode m newNodeSize cn newNodeAddr)

/-- The loop of `getNextAvailableNode`, started at `curr`. -/
def getNextAvailableNodeLoop (m : Memory) (sizeReq : Nat) :
    Nat → Nat → Except Fault Nat
  | 0, _ => .error .outOfFuel
  | fuel + 1, curr => do
    let nxt ← rdNext m curr
    if nxt ≠ 0 then
      let ns ← rdSize m nxt
      if ns ≥ sizeReq then pure curr
      else getNextAvailableNodeLoop m sizeReq fuel nxt
    else pure 0

/-- The function `getNextAvailableNode(sizeReq)` (lines 118-127): a node whose
successor has capacity at least `sizeReq`, or `NULL`. -/
def getNextAvailableNode (fuel : Nat) (s : State) (sizeReq : Nat) :
    Except Fault Nat :=
  getNextAvailableNodeLoop s.mem sizeReq fuel s.freelist

/-- The scan of `insertNode`: advance while `curr->next != NULL` and
`addr > curr->next`. -/
def insertNodeScan (m : Memory) (addr : Nat) : Nat → Nat → Except Fault Nat
  | 0, _ => .error .outOfFuel
  | fuel + 1, curr => do
    let nxt ← rdNext m curr
    if nxt ≠ 0 ∧ addr > nxt then insertNodeScan m addr fuel nxt
    else pure curr

/-- The function `insertNode(totalSize, addr)` (lines 142-156). -/
def insertNode (fuel : Nat) (totalSize addr : Nat) (s : State) :
    Except Fault State := do
  let s1 : State :=
    if s.freelist = 0 then
      let r := makeNewNode s.mem totalSize 0 addr
      { s with mem := r.1, freelist := r.2 }
    else s
  if addr < s1.freelist then
    let r := makeNewNode s1.mem totalSize s1.freelist addr
    pure { s1 with mem := r.1, freelist := r.2 }
  else
    let curr ← insertNodeScan s1.mem addr fuel s1.freelist
    let cn ← rdNext s1.mem curr
    let r := makeNewNode s1.mem totalSize cn addr
    let m2 ← wrNext r.1 curr r.2
    pure { s1 with mem := m2 }

/-- The host allocator: the next answer of the queue, `NULL` when exhausted. -/
def malloc (s : State) : Nat × State :=
  match s.host with
  | [] => (0, s)
  | a :: rest => (a, { s with host := rest })

/-- The function `addMem(sizeReq)` (lines 160-177). -/
def addMem (fuel : Nat) (P : Params) (sizeReq : Nat) (s : State) :
    Except Fault State := do
  let totalSize :=
    if sizeReq > EXPAND_LIST_SIZE then addW ((sizeReq / 16) * 16) 16
    else EXPAND_LIST_SIZE
  let r := malloc s
  let newMem := r.1
  let s1 : State := if newMem = 0 then { r.2 with freelist := 0 } else r.2
  let s2 : State :=
    { s1 with totalmalloc := addW (addW s1.totalmalloc totalSize) P.NODESIZE }
  if s2.freelist = 0 then
    let k := makeNewNode s2.mem totalSize 0 newMem
    pure { s2 with mem := k.1, freelist := k.2 }
  else insertNode fuel totalSize newMem s2

/-- The rounding at the start of `getmem`. -/
def roundSize (size : Nat) : Nat :=
  if size % 16 ≠ 0 then addW ((size / 16) * 16) 16 else size

/-- The function `getmem(size)` (lines 63-106): the returned pointer (`0` is
`NULL`) and the new state. -/
def getmem (fuel : Nat) (P : Params) (size : Nat) (s : State) :
    Except Fault (Nat × State) := do
  if size ≤ 0 then pure (0, s)
  else
    let size := roundSize size
    let s1 ← (if s.freelist = 0 then addMem fuel P size s else pure s)
    if s1.freelist ≠ 0 ∧ (s1.mem s1.freelist).size ≥ size then
      let blockAddr := addW s1.freelist P.NODESIZE
      if (s1.mem s1.freelist).size ≥ addW (addW size P.NODESIZE) P.MINCHUNK then
        let curr := s1.freelist
        let r ← splitNode P s1.mem curr size
        let m2 ← wrSize r.1 curr size
        let m3 ← wrNext m2 curr r.2
        pure (blockAddr, { s1 with mem := m3, freelist := r.2 })
      else pure (blockAddr, s1)
    else
      let reqNode ← getNextAvailableNode fuel s1 size
      let s2 ← (if reqNode = 0 then addMem fuel P size s1 else pure s1)
      let reqNode ← (if reqNode = 0 then getNextAvailableNode fuel s2 size
                     else pure reqNode)
      if reqNode = 0 then pure (0, s2)
      else
        let t ← rdNext s2.mem reqNode
        let blockAddr := addW t P.NODESIZE
        let ts ← rdSize s2.mem t
        let m1 ←
          (if ts ≥ size ∧ ts ≥ addW (addW size P.NODESIZE) P.MINCHUNK then do
            let r ← splitNode P s2.mem t size
            let t1 ← rdNext r.1 reqNode
            let m2 ← wrSize r.1 t1 size
            let t2 ← rdNext m2 reqNode
            wrNext m2 t2 r.2
          else pure s2.mem)
        let t3 ← rdNext m1 reqNode
        let t3n ← rdNext m1 t3
        let m4 ← wrNext m1 reqNode t3n
        pure (blockAddr, { s2 with mem := m4 })

/-- The function `isAdjacent(node1, node2)` (lines 250-260). -/
def isAdjacent (P : Params) (m : Memory) (node1 node2 : Nat) :
    Except Fault Bool := do
  let addr1 := node1
  let addr2 := node2
  let size1 ← rdSize m node1
  let size2 ← rdSize m node2
  if addr1 < addr2 then pure (decide (addW (addW addr1 P.NODESIZE) size1 = addr2))
  else pure (decide (addW (addW addr2 P.NODESIZE) size2 = addr1))

/-- The loop of `combineFreeBlock`, with `curr` the node under examination. -/
def combineFreeBlockLoop (P : Params) : Nat → Memory → Nat → Except Fault Memory
  | 0, _, _ => .error .outOfFuel
  | fuel + 1, m, curr => do
    let nxt ← rdNext m curr
    if nxt ≠ 0 then
      let adj ← isAdjacent P m curr nxt
      if adj then
        let temp := nxt
        let tn ← rdNext m temp
        let m1 ← wrNext m curr tn
        let cs ← rdSize m1 curr
        let ts ← rdSize m1 temp
        let m2 ← wrSize m1 curr (addW (addW cs P.NODESIZE) ts)
        combineFreeBlockLoop P fuel m2 curr
      else combineFreeBlockLoop P fuel m nxt
    else pure m

/-- The function `combineFreeBlock()` (lines 232-246). -/
def combineFreeBlock (fuel : Nat) (P : Params) (s : State) : Except Fault State :=
  let curr := s.freelist
  if curr = 0 then pure s
  else do
    let m ← combineFreeBlockLoop P fuel s.mem curr
    pure { s with mem := m }

/-- The scan of `insertFreelist` over the nodes after the head: the new memory,
the final `curr` and the flag `added`. -/
def insertFreelistScan (addr size : Nat) :
    Nat → Memory → Nat → Except Fault (Memory × Nat × Bool)
  | 0, _, _ => .error .outOfFuel
  | fuel + 1, m, curr => do
    let nxt ← rdNext m curr
    if nxt ≠ 0 then
      if addr > curr ∧ addr < nxt then
        let r := makeNewNode m size nxt addr
        let m1 ← wrNext r.1 curr r.2
        pure (m1, curr, true)
      else insertFreelistScan addr size fuel m nxt
    else pure (m, curr, false)

/-- The insertion of `insertFreelist(addr, size)`, up to but excluding the
final call of `combineFreeBlock`. -/
def insertFreelistLink (fuel : Nat) (addr size : Nat) (s : State) :
    Except Fault State := do
  let s1 : State :=
    if s.freelist = 0 then
      let r := makeNewNode s.mem size 0 addr
      { s with mem := r.1, freelist := r.2 }
    else s
  if addr < s1.freelist then
    let r := makeNewNode s1.mem size s1.freelist addr
    pure { s1 with mem := r.1, freelist := r.2 }
  else
    let (m, curr, added) ← insertFreelistScan addr size fuel s1.mem s1.freelist
    if added = false then
      let r := makeNewNode m size 0 addr
      let m1 ← wrNext r.1 curr r.2
      pure { s1 with mem := m1 }
    else pure { s1 with mem := m }

/-- The function `insertFreelist(addr, size)` (lines 200-229). -/
def insertFreelist (fuel : Nat) (P : Params) (addr size : Nat) (s : State) :
    Except Fault State := do
  let s1 ← insertFreelistLink fuel addr size s
  combineFreeBlock fuel P s1

/-- The function `freemem(p)` (lines 185-193). -/
def freemem (fuel : Nat) (P : Params) (p : Nat) (s : State) :
    Except Fault State :=
  if p = 0 then pure s
  else do
    let addr := subW p P.NODESIZE
    let nodeP := subW addr P.NODESIZE
    let sizeP ← rdSize s.mem nodeP
    insertFreelist fuel P addr sizeP s

/-- Memory in which every byte is zero (fresh pages of the host). -/
def zeroMem : Memory := ⟨fun _ => 0⟩

/-- The allocator before its first call: `freelist = NULL`, `totalmalloc = 0`,
with the given answers of the host allocator still to come. -/
def fresh (host : List Nat) : State := ⟨zeroMem, 0, 0, host⟩

/-- The free list as `(address, capacity)` pairs, read by following `next`
from `a` for at most `fuel` nodes. -/
def freeBlocks (m : Memory) : Nat → Nat → List (Nat × Nat)
  | 0, _ => []
  | fuel + 1, a =>
    if a = 0 then [] else (a, (m a).size) :: freeBlocks m fuel (m a).next

/-- Modelled from the spec: the Stats Reporter (`get_mem_stats`, not among the
sources) sums `capacity` over the free list and counts its nodes. -/
def freeStats (m : Memory) (fuel head : Nat) : Nat × Nat :=
  (((freeBlocks m fuel head).map Prod.snd).sum, (freeBlocks m fuel head).length)

/-- The chain of `next` links from `a` visits exactly the addresses `xs` and
then reaches `NULL`: the free list is the finite, `NULL`-terminated list `xs`. -/
def isList (m : Memory) : Nat → List Nat → Prop
  | a, [] => a = 0
  | a, x :: xs => a = x ∧ x ≠ 0 ∧ isList m (m x).next xs

/-- The 16-byte headers at `a` and `b` share no byte. -/
def apart (a b : Nat) : Prop := a + 16 ≤ b ∨ b + 16 ≤ a

instance (a b : Nat) : Decidable (apart a b) :=
  inferInstanceAs (Decidable (a + 16 ≤ b ∨ b + 16 ≤ a))

/-- The headers at the addresses `xs` lie at increasing addresses and no two of
them share a byte: each starts at least 16 bytes after the one before. -/
def spaced (xs : List Nat) : Prop := xs.Pairwise (fun a b => a + 16 ≤ b)

instance (xs : List Nat) : Decidable (spaced xs) :=
  inferInstanceAs (Decidable (xs.Pairwise (fun a b => a + 16 ≤ b)))

/-- The test of `combineFreeBlock` on a node `a` and its successor `b` when
`a < b`: `a + NODESIZE + a->size == b` in `uintptr_t` arithmetic. -/
def adjacent (P : Params) (m : Memory) (a b : Nat) : Prop :=
  addW (addW a P.NODESIZE) (m a).size = b

/-- Address-ordered insertion as the spec words it: `addr` goes before the
first address that exceeds it, at the tail when there is none. -/
def insertAddr (addr : Nat) : List Nat → List Nat
  | [] => [addr]
  | x :: xs => if addr < x then addr :: x :: xs else x :: insertAddr addr xs

/-- Memory after the stores `a->next = next; a->size = size` on a header `a`
that is not `NULL`. -/
def putNode (m : Memory) (a size next : Nat) : Memory :=
  setSize (setNext m a next) a size

/-- A memory holding three free blocks: `(4096, 16)`, then `(4128, 32)`, which
starts exactly where the first one ends, then `(5000, 8)`. -/
def threeBlockMem : Memory :=
  putNode (putNode (putNode zeroMem 4096 16 4128) 4128 32 5000) 5000 8 0

/-- The allocator state whose free list is the three blocks of `threeBlockMem`. -/
def threeBlockState : State := ⟨threeBlockMem, 4096, 0, []⟩

/-- Memory that is zero everywhere except for the word `v` stored at the bytes
`a .. a + 7` (a word some earlier owner of that place left there). -/
def pokeMem (a v : Nat) : Memory := wr64 zeroMem a v

/-- The allocator before its first call, over the memory `m`. -/
def freshIn (m : Memory) (host : List Nat) : State := ⟨m, 0, 0, host⟩

/-- The block size `totalSize` that `addMem(sizeReq)` computes (lines 161-164). -/
def addMemTotalSize (sizeReq : Nat) : Nat :=
  if sizeReq > EXPAND_LIST_SIZE then addW ((sizeReq / 16) * 16) 16
  else EXPAND_LIST_SIZE

/-- The number of bytes `addMem(sizeReq)` asks of the host: the argument
`totalSize + NODESIZE` of `malloc` (line 165). -/
def addMemRequest (P : Params) (sizeReq : Nat) : Nat :=
  addW (addMemTotalSize sizeReq) P.NODESIZE

/-- A memory holding the two-node list `4129 → 4096`: a block `(4129, 8)` whose
successor `(4096, 1000)` lies at a lower address and covers it. -/
def twoBlockMem : Memory :=
  putNode (putNode zeroMem 4129 8 4096) 4096 1000 0

/-- A memory holding the increasing two-node list `4096 → 5007` whose second
block claims the capacity `2 ^ 64 - 1`. -/
def wrapMem : Memory :=
  putNode (putNode zeroMem 4096 8 5007) 5007 (2 ^ 64 - 1) 0

/-- The allocator state whose free list is the single block `(4096, 8192)`. -/
def oneBlockState : State := ⟨pokeMem 4096 8192, 4096, 0, []⟩

/-- A memory holding the two-node list `(4096, 8)`, `(8192, 1000)`. -/
def smallThenLargeMem : Memory :=
  putNode (putNode zeroMem 4096 8 8192) 8192 1000 0

/-- The allocator state whose free list is the two blocks of `smallThenLargeMem`. -/
def smallThenLargeState : State := ⟨smallThenLargeMem, 4096, 0, []⟩

/-- The chain of `next` links from `a` visits exactly the addresses `xs` and
then arrives at `b`: a segment of the free list. -/
def isSeg (m : Memory) : Nat → List Nat → Nat → Prop
  | a, [], b => a = b
  | a, x :: xs, b => a = x ∧ x ≠ 0 ∧ isSeg m (m x).next xs b

/-- The allocator state whose free list is the chain `4129 → 4096` of
`twoBlockMem`. -/
def twoBlockState : State := ⟨twoBlockMem, 4129, 0, []⟩

/-- The allocator state whose free list is the chain `4096 → 5007` of `wrapMem`. -/
def wrapState : State := ⟨wrapMem, 4096, 0, []⟩

/-- The blocks of the nodes `xs`: each address with the capacity its header
holds in `m`. -/
def blocksOf (m : Memory) (xs : List Nat) : List (Nat × Nat) :=
  xs.map (fun a => (a, (m a).size))

/-- The memory a list of blocks accounts for: the sum of `NODESIZE + size`. -/
def tracked (P : Params) (bs : List (Nat × Nat)) : Nat :=
  (bs.map (fun b => P.NODESIZE + b.2)).sum

/-- Block `y` starts exactly where block `x` ends:
`x.address + NODESIZE + x.size == y.address` in `uintptr_t` arithmetic. -/
def contiguous (P : Params) (x y : Nat × Nat) : Prop :=
  addW (addW x.1 P.NODESIZE) x.2 = y.1

/-- The maximal runs of physically contiguous blocks of a list: a block joins
the run of its successor exactly when the successor starts where it ends. -/
def runs (P : Params) : List (Nat × Nat) → List (List (Nat × Nat))
  | [] => []
  | [x] => [[x]]
  | x :: y :: rest =>
    match runs P (y :: rest) with
    | g :: gs =>
      if addW (addW x.1 P.NODESIZE) x.2 = y.1 then (x :: g) :: gs else [x] :: g :: gs
    | [] => [[x]]

/-- The capacity the claim gives a merged run of `k` blocks: the sum of the `k`
capacities plus `(k - 1) * NODESIZE`, in exact arithmetic. -/
def exactCap (P : Params) (run : List (Nat × Nat)) : Nat :=
  (run.map Prod.snd).sum + (run.length - 1) * P.NODESIZE

/-- The capacity of a merged run as `uintptr_t` arithmetic accumulates it:
`size = size + NODESIZE + next->size`, block after block. -/
def runCap (P : Params) : List (Nat × Nat) → Nat
  | [] => 0
  | x :: rest => rest.foldl (fun acc y => addW (addW acc P.NODESIZE) y.2) x.2

/-- The single block that replaces a run: the address of its first block with
the accumulated capacity. -/
def mergeRun (P : Params) (run : List (Nat × Nat)) : Nat × Nat :=
  ((run.head?.map Prod.fst).getD 0, runCap P run)

/-- The Coalescer as the spec words it, on a list of blocks: the current block
`(a, s)` absorbs its successor while the successor starts where it ends, and
otherwise the pass advances to the successor. -/
def coalesceFrom (P : Params) : Nat → Nat → List (Nat × Nat) → List (Nat × Nat)
  | a, s, [] => [(a, s)]
  | a, s, (b, t) :: rest =>
    if addW (addW a P.NODESIZE) s = b then coalesceFrom P a (addW (addW s P.NODESIZE) t) rest
    else (a, s) :: coalesceFrom P b t rest

/-- A memory holding six free blocks in three runs: `4096, 4128, 4176`
contiguous, `5000, 5017` contiguous, and `6000` alone. -/
def sixBlockMem : Memory :=
  putNode (putNode (putNode (putNode (putNode (putNode zeroMem 4096 16 4128) 4128 32 4176)
    4176 8 5000) 5000 1 5017) 5017 3 6000) 6000 1 0

/-- The allocator state whose free list is the six blocks of `sixBlockMem`. -/
def sixBlockState : State := ⟨sixBlockMem, 4096, 0, []⟩

/-- The given number of successive calls `getmem(size)`, each on the state the
previous one left; the returned pointers are dropped. -/
def getmemTimes (fuel : Nat) (P : Params) (size : Nat) : Nat → State → Except Fault State
  | 0, s => pure s
  | n + 1, s => do
    let (_, s1) ← getmem fuel P size s
    getmemTimes fuel P size n s1

/-- A memory holding the chain `4096 → 4104 → 8224` in which the header at 4104
starts inside the header at 4096: the field `next` of 4096 and the field `size`
of 4104 are the same word, which holds 4104. -/
def sharedWordMem : Memory :=
  putNode (putNode (putNode zeroMem 8224 8 0) 4104 4104 8224) 4096 16 4104

/-- The allocator state whose free list is the chain of `sharedWordMem`. -/
def sharedWordState : State := ⟨sharedWordMem, 4096, 0, []⟩

/-- A memory holding the chain `4649 → 4657 → 9330` in which the header at 4657
starts inside the header at 4649: the field `next` of 4649 and the field `size`
of 4657 are the same word, which holds 4657. -/
def straddleMem : Memory :=
  putNode (putNode (putNode zeroMem 9330 2958 0) 4657 4657 9330) 4649 15 4657

/-- The allocator state whose free list is the chain of `straddleMem`. -/
def straddleState : State := ⟨straddleMem, 4649, 0, []⟩

/-- A memory holding the two-node list `(4096, 16)`, `(5000, 8)`. -/
def farPairMem : Memory :=
  putNode (putNode zeroMem 5000 8 0) 4096 16 5000

/-- The allocator state whose free list is the two blocks of `farPairMem`. -/
def farPairState : State := ⟨farPairMem, 4096, 0, []⟩

/-- A memory holding the two-node list `4130 → 4096`: a block `(4130, 8)` whose
successor `(4096, 1000)` lies at a lower address and covers it. -/
def nearBlockMem : Memory :=
  putNode (putNode zeroMem 4096 1000 0) 4130 8 4096

/-- The allocator state whose free list is the chain `4130 → 4096` of
`nearBlockMem`. -/
def nearBlockState : State := ⟨nearBlockMem, 4130, 0, []⟩

/-- A memory holding the chain `8184 → 8192` in which the header at 8192 starts
inside the header at 8184: the field `next` of 8184 and the field `size` of
8192 are the same word, which holds 8192. -/
def nearPredMem : Memory :=
  putNode (putNode zeroMem 8192 1000 0) 8184 8 8192

/-- The allocator state whose free list is the chain of `nearPredMem`. -/
def nearPredState : State := ⟨nearPredMem, 8184, 0, []⟩

/-! ## Auxiliary lemmas -/

@[simp] theorem rdSize_ne {m : Memory} {a : Nat} (h : a ≠ 0) : rdSize m a = .ok (m a).size := by
  simp [rdSize, h]
@[simp] theorem rdNext_ne {m : Memory} {a : Nat} (h : a ≠ 0) : rdNext m a = .ok (m a).next := by
  simp [rdNext, h]
@[simp] theorem wrSize_ne {m : Memory} {a v : Nat} (h : a ≠ 0) : wrSize m a v = .ok (setSize m a v) := by
  simp [wrSize, h]
@[simp] theorem wrNext_ne {m : Memory} {a v : Nat} (h : a ≠ 0) : wrNext m a v = .ok (setNext m a v) := by
  simp [wrNext, h]

theorem bind_eq_ok {α β : Type} {x : Except Fault α} {f : α → Except Fault β} {b : β} :
    (x >>= f) = .ok b ↔ ∃ a, x = .ok a ∧ f a = .ok b := by
  cases x with
  | error e => simp [bind, Except.bind]
  | ok a => simp [bind, Except.bind]

theorem W_eq : W = 18446744073709551616 := by unfold W; norm_num

theorem W_pos : 0 < W := by rw [W_eq]; norm_num

theorem rd64_lt (m : Memory) (a : Nat) : rd64 m a < W := by
  unfold rd64
  rw [W_eq]
  omega

theorem wr64_byte (m : Memory) (a v x : Nat) :
    (wr64 m a v).byte x = if a ≤ x ∧ x < a + 8 then (v / 256 ^ (x - a)) % 256 else m.byte x :=
  rfl

/-- A word stored at `a` is read back from `a`, reduced to 64 bits. -/
theorem rd64_wr64_same (m : Memory) (a v : Nat) : rd64 (wr64 m a v) a = v % W := by
  unfold rd64
  simp only [wr64_byte]
  have h0 : a ≤ a ∧ a < a + 8 := ⟨le_refl _, by omega⟩
  have h1 : a ≤ a + 1 ∧ a + 1 < a + 8 := ⟨by omega, by omega⟩
  have h2 : a ≤ a + 2 ∧ a + 2 < a + 8 := ⟨by omega, by omega⟩
  have h3 : a ≤ a + 3 ∧ a + 3 < a + 8 := ⟨by omega, by omega⟩
  have h4 : a ≤ a + 4 ∧ a + 4 < a + 8 := ⟨by omega, by omega⟩
  have h5 : a ≤ a + 5 ∧ a + 5 < a + 8 := ⟨by omega, by omega⟩
  have h6 : a ≤ a + 6 ∧ a + 6 < a + 8 := ⟨by omega, by omega⟩
  have h7 : a ≤ a + 7 ∧ a + 7 < a + 8 := ⟨by omega, by omega⟩
  rw [if_pos h0, if_pos h1, if_pos h2, if_pos h3, if_pos h4, if_pos h5, if_pos h6, if_pos h7]
  simp only [Nat.sub_self, Nat.add_sub_cancel_left, Nat.mod_mod]
  rw [W_eq]
  norm_num
  omega

/-- A store of a word leaves every word that shares no byte with it as it was. -/
theorem rd64_wr64_apart (m : Memory) (a v b : Nat) (h : b + 8 ≤ a ∨ a + 8 ≤ b) :
    rd64 (wr64 m a v) b = rd64 m b := by
  unfold rd64
  simp only [wr64_byte]
  have n0 : ¬ (a ≤ b ∧ b < a + 8) := by omega
  have n1 : ¬ (a ≤ b + 1 ∧ b + 1 < a + 8) := by omega
  have n2 : ¬ (a ≤ b + 2 ∧ b + 2 < a + 8) := by omega
  have n3 : ¬ (a ≤ b + 3 ∧ b + 3 < a + 8) := by omega
  have n4 : ¬ (a ≤ b + 4 ∧ b + 4 < a + 8) := by omega
  have n5 : ¬ (a ≤ b + 5 ∧ b + 5 < a + 8) := by omega
  have n6 : ¬ (a ≤ b + 6 ∧ b + 6 < a + 8) := by omega
  have n7 : ¬ (a ≤ b + 7 ∧ b + 7 < a + 8) := by omega
  rw [if_neg n0, if_neg n1, if_neg n2, if_neg n3, if_neg n4, if_neg n5, if_neg n6, if_neg n7]

theorem next_lt (m : Memory) (a : Nat) : (m a).next < W := rd64_lt m (a + 8)

theorem setSize_size_self (m : Memory) (a v : Nat) : (setSize m a v a).size = v % W :=
  rd64_wr64_same m a v

theorem setSize_next_self (m : Memory) (a v : Nat) : (setSize m a v a).next = (m a).next :=
  rd64_wr64_apart m a v (a + 8) (Or.inr (le_refl _))

theorem setNext_next_self (m : Memory) (a v : Nat) : (setNext m a v a).next = v % W :=
  rd64_wr64_same m (a + 8) v

theorem setNext_size_self (m : Memory) (a v : Nat) : (setNext m a v a).size = (m a).size :=
  rd64_wr64_apart m (a + 8) v a (Or.inl (le_refl _))

theorem setSize_apart (m : Memory) (a v x : Nat) (h : apart a x) : setSize m a v x = m x := by
  unfold apart at h
  show Memory.node (wr64 m a v) x = Memory.node m x
  unfold Memory.node
  rw [rd64_wr64_apart m a v x (by omega), rd64_wr64_apart m a v (x + 8) (by omega)]

theorem setNext_apart (m : Memory) (a v x : Nat) (h : apart a x) : setNext m a v x = m x := by
  unfold apart at h
  show Memory.node (wr64 m (a + 8) v) x = Memory.node m x
  unfold Memory.node
  rw [rd64_wr64_apart m (a + 8) v x (by omega), rd64_wr64_apart m (a + 8) v (x + 8) (by omega)]

theorem apart_symm {a b : Nat} (h : apart a b) : apart b a := Or.symm h

theorem makeNewNode_snd (m : Memory) (sz nx a : Nat) : (makeNewNode m sz nx a).2 = a := by
  unfold makeNewNode; split <;> simp_all

theorem makeNewNode_fst (m : Memory) (sz nx a : Nat) (ha : a ≠ 0) :
    (makeNewNode m sz nx a).1 = setSize (setNext m a nx) a sz := by
  unfold makeNewNode; simp [ha]

theorem makeNewNode_size_self (m : Memory) (sz nx a : Nat) (ha : a ≠ 0) :
    ((makeNewNode m sz nx a).1 a).size = sz % W := by
  rw [makeNewNode_fst m sz nx a ha, setSize_size_self]

theorem makeNewNode_next_self (m : Memory) (sz nx a : Nat) (ha : a ≠ 0) :
    ((makeNewNode m sz nx a).1 a).next = nx % W := by
  rw [makeNewNode_fst m sz nx a ha, setSize_next_self, setNext_next_self]

theorem makeNewNode_apart (m : Memory) (sz nx a x : Nat) (h : apart a x) :
    (makeNewNode m sz nx a).1 x = m x := by
  unfold makeNewNode
  split
  · rfl
  · show setSize (setNext m a nx) a sz x = m x
    rw [setSize_apart _ _ _ _ h, setNext_apart _ _ _ _ h]

theorem isList_congr {m m' : Memory} : ∀ (xs : List Nat) (a : Nat),
    (∀ x ∈ xs, (m' x).next = (m x).next) → isList m a xs → isList m' a xs
  | [], _, _, h => h
  | x :: xs, a, hm, h => by
    obtain ⟨h1, h2, h3⟩ := h
    refine ⟨h1, h2, ?_⟩
    rw [hm x (List.mem_cons_self _ _)]
    exact isList_congr xs _ (fun y hy => hm y (List.mem_cons_of_mem _ hy)) h3

/-- Every node of a list other than its head is a stored pointer, hence a
`uintptr_t` value. -/
theorem isList_lt_W {m : Memory} : ∀ (xs : List Nat) (a : Nat), a < W → isList m a xs →
    ∀ x ∈ xs, x < W
  | [], _, _, _ => fun _ hx => absurd hx (List.not_mem_nil _)
  | y :: ys, a, ha, h => by
    obtain ⟨h1, _, h3⟩ := h
    intro x hx
    rcases List.mem_cons.mp hx with rfl | hx
    · omega
    · exact isList_lt_W ys _ (next_lt m y) h3 x hx

theorem spaced_lt {xs : List Nat} (h : spaced xs) : xs.Pairwise (· < ·) :=
  List.Pairwise.imp (fun h => by omega) h

theorem blocksOf_congr {m m' : Memory} (xs : List Nat) (h : ∀ x ∈ xs, (m' x).size = (m x).size) :
    blocksOf m' xs = blocksOf m xs := by
  unfold blocksOf
  exact List.map_congr_left (fun x hx => by rw [h x hx])

/-- The coalescing pass over a list whose headers share no byte: it returns, the
result is again a list from the same head, made of nodes of the old one, with
no node contiguous with its successor; its blocks are those of the
left-to-right merge; and every header that shares no byte with a node of the
list is untouched. -/
theorem combineLoop_spec (P : Params) : ∀ (rest : List Nat) (m : Memory) (c fuel : Nat),
    isList m c (c :: rest) → spaced (c :: rest) → rest.length < fuel →
    ∃ m' ys, combineFreeBlockLoop P fuel m c = .ok m' ∧ isList m' c (c :: ys) ∧
      ys.Sublist rest ∧ (c :: ys).Chain' (fun a b => ¬ adjacent P m' a b) ∧
      blocksOf m' (c :: ys) = coalesceFrom P c (m c).size (blocksOf m rest) ∧
      (∀ a, (∀ x ∈ c :: rest, apart x a) → m' a = m a) := by
  intro rest
  induction rest with
  | nil =>
    intro m c fuel hl _ hf
    obtain ⟨_, hc, hn⟩ := hl
    obtain ⟨f, rfl⟩ : ∃ f, fuel = f + 1 := ⟨fuel - 1, by simp at hf; omega⟩
    refine ⟨m, [], ?_, ⟨rfl, hc, hn⟩, List.Sublist.refl _, List.chain'_singleton _, rfl,
      fun _ _ => rfl⟩
    have hn' : (m c).next = 0 := hn
    simp [combineFreeBlockLoop, hc, hn', bind, Except.bind, pure, Except.pure]
  | cons d rest ih =>
    intro m c fuel hl hs hf
    obtain ⟨_, hc, hcd, hd, hn⟩ := hl
    obtain ⟨f, rfl⟩ : ∃ f, fuel = f + 1 := ⟨fuel - 1, by simp at hf; omega⟩
    have hf' : rest.length < f := by simp at hf; omega
    unfold spaced at hs
    rw [List.pairwise_cons] at hs
    obtain ⟨hcl, hs'⟩ := hs
    have hcd16 : c + 16 ≤ d := hcl d (List.mem_cons_self _ _)
    have hlt : c < d := by omega
    have hap : ∀ x ∈ d :: rest, apart c x := fun x hx => Or.inl (hcl x hx)
    by_cases hadj : addW (addW c P.NODESIZE) (m c).size = d
    · -- merge `d` into `c`
      set m2 : Memory := setSize (setNext m c (m d).next) c
        (addW (addW (m c).size P.NODESIZE) (m d).size) with hm2
      have hr1 : (setNext m c (m d).next c).size = (m c).size := setNext_size_self _ _ _
      have hr2 : (setNext m c (m d).next d).size = (m d).size := by
        rw [setNext_apart _ _ _ _ (hap d (List.mem_cons_self _ _))]
      have hstep : combineFreeBlockLoop P (f + 1) m c = combineFreeBlockLoop P f m2 c := by
        simp [combineFreeBlockLoop, isAdjacent, hc, hcd, hd, hlt, hadj, bind, Except.bind, pure,
          Except.pure, hm2, hr1, hr2]
      have hfar : ∀ x, apart c x → m2 x = m x := fun x hx => by
        rw [hm2, setSize_apart _ _ _ _ hx, setNext_apart _ _ _ _ hx]
      have hl2 : isList m2 c (c :: rest) := by
        refine ⟨rfl, hc, ?_⟩
        have h1 : (m2 c).next = (m d).next := by
          rw [hm2, setSize_next_self, setNext_next_self, Nat.mod_eq_of_lt (next_lt m d)]
        rw [h1]
        refine isList_congr rest _ (fun x hx => ?_) hn
        rw [hfar x (hap x (List.mem_cons_of_mem _ hx))]
      have hs2 : spaced (c :: rest) :=
        List.pairwise_cons.mpr
          ⟨fun a ha => hcl a (List.mem_cons_of_mem _ ha), (List.pairwise_cons.mp hs').2⟩
      obtain ⟨m', ys, hrun, hly, hsub, hch, hbl, hfr⟩ := ih m2 c f hl2 hs2 hf'
      refine ⟨m', ys, hstep.trans hrun, hly, hsub.trans (List.sublist_cons_self _ _), hch, ?_, ?_⟩
      · rw [hbl]
        have e1 : (m2 c).size = addW (addW (m c).size P.NODESIZE) (m d).size := by
          rw [hm2, setSize_size_self]
          exact Nat.mod_eq_of_lt (Nat.mod_lt _ W_pos)
        have e2 : blocksOf m2 rest = blocksOf m rest :=
          blocksOf_congr rest (fun x hx => by
            rw [hfar x (hap x (List.mem_cons_of_mem _ hx))])
        rw [e1, e2]
        simp [blocksOf, coalesceFrom, hadj]
      · intro a ha
        have ha1 : ∀ x ∈ c :: rest, apart x a := fun x hx => ha x (by
          rcases List.mem_cons.mp hx with h | h
          · exact h ▸ List.mem_cons_self _ _
          · exact List.mem_cons_of_mem _ (List.mem_cons_of_mem _ h))
        rw [hfr a ha1]
        exact hfar a (ha c (List.mem_cons_self _ _))
    · -- `c` and `d` are not contiguous: advance to `d`
      have hstep : combineFreeBlockLoop P (f + 1) m c = combineFreeBlockLoop P f m d := by
        simp [combineFreeBlockLoop, isAdjacent, hc, hcd, hd, hlt, hadj, bind, Except.bind,
          pure, Except.pure]
      obtain ⟨m', ys, hrun, hly, hsub, hch, hbl, hfr⟩ := ih m d f ⟨rfl, hd, hn⟩ hs' hf'
      have hmc : m' c = m c := hfr c (fun x hx => apart_symm (hap x hx))
      refine ⟨m', d :: ys, hstep.trans hrun, ⟨rfl, hc, ?_⟩, hsub.cons₂ d, ?_, ?_, ?_⟩
      · rw [hmc, hcd]; exact hly
      · refine List.Chain'.cons ?_ hch
        unfold adjacent
        rw [hmc]; exact hadj
      · have : blocksOf m' (c :: d :: ys) = (c, (m c).size) :: blocksOf m' (d :: ys) := by
          simp [blocksOf, hmc]
        rw [this, hbl]
        simp [blocksOf, coalesceFrom, hadj]
      · intro a ha
        exact hfr a (fun x hx => ha x (List.mem_cons_of_mem _ hx))

theorem mem_insertAddr {addr : Nat} : ∀ {xs : List Nat} {a : Nat},
    a ∈ insertAddr addr xs ↔ a = addr ∨ a ∈ xs
  | [], a => by simp [insertAddr]
  | x :: xs, a => by
    unfold insertAddr
    split
    · simp
    · simp only [List.mem_cons, @mem_insertAddr addr xs]
      tauto

theorem insertAddr_pairwise {addr : Nat} : ∀ {xs : List Nat}, xs.Pairwise (· < ·) →
    addr ∉ xs → (insertAddr addr xs).Pairwise (· < ·)
  | [], _, _ => by simp [insertAddr]
  | x :: xs, hs, hn => by
    rw [List.pairwise_cons] at hs
    unfold insertAddr
    split
    · next hlt =>
      refine List.pairwise_cons.mpr ⟨?_, List.pairwise_cons.mpr hs⟩
      intro b hb
      rcases List.mem_cons.mp hb with rfl | hb
      · exact hlt
      · exact lt_trans hlt (hs.1 b hb)
    · next hge =>
      have hne : addr ≠ x := fun h => hn (h ▸ List.mem_cons_self _ _)
      have hxa : x < addr := by omega
      refine List.pairwise_cons.mpr ⟨?_, insertAddr_pairwise hs.2
        (fun h => hn (List.mem_cons_of_mem _ h))⟩
      intro b hb
      rcases mem_insertAddr.mp hb with rfl | hb
      · exact hxa
      · exact hs.1 b hb

theorem subW_lt (a b : Nat) : subW a b < W := Nat.mod_lt _ W_pos

/-- The call `freemem` on a non-empty, finite, strictly increasing free list that does
not hold the freed header: it returns and leaves no node contiguous with its
successor. -/

theorem insertAddr_split {addr : Nat} : ∀ {xs : List Nat}, xs.Pairwise (· < ·) → addr ∉ xs →
    ∃ pre post, xs = pre ++ post ∧ (∀ a ∈ pre, a < addr) ∧ (∀ b ∈ post, addr < b) ∧
      insertAddr addr xs = pre ++ addr :: post
  | [], _, _ => ⟨[], [], rfl, by simp, by simp, rfl⟩
  | x :: xs, hs, hn => by
    rw [List.pairwise_cons] at hs
    by_cases hlt : addr < x
    · refine ⟨[], x :: xs, rfl, by simp, ?_, by simp [insertAddr, hlt]⟩
      intro b hb
      rcases List.mem_cons.mp hb with rfl | hb
      · exact hlt
      · exact lt_trans hlt (hs.1 b hb)
    · have hne : addr ≠ x := fun h => hn (h ▸ List.mem_cons_self _ _)
      obtain ⟨pre, post, h1, h2, h3, h4⟩ :=
        insertAddr_split hs.2 (fun h => hn (List.mem_cons_of_mem _ h))
      refine ⟨x :: pre, post, by simp [h1], ?_, h3, by simp [insertAddr, hlt, h4]⟩
      intro a ha
      rcases List.mem_cons.mp ha with rfl | ha
      · omega
      · exact h2 a ha

theorem addW_eq (a b : Nat) (h : a + b < W) : addW a b = a + b := Nat.mod_eq_of_lt h

theorem subW_eq (a b : Nat) (hb : b ≤ a) (ha : a < W) : subW a b = a - b := by
  unfold subW
  have hbW : b < W := lt_of_le_of_lt hb ha
  rw [Nat.mod_eq_of_lt hbW]
  have : a + W - b = (a - b) + W := by omega
  rw [this, Nat.add_mod_right, Nat.mod_eq_of_lt (by omega)]

/-- The arithmetic of `splitNode` when nothing wraps around. -/

theorem isList_append {m : Memory} : ∀ (l1 : List Nat) (a x : Nat) (l2 : List Nat),
    isList m a (l1 ++ x :: l2) → isSeg m a l1 x ∧ isList m x (x :: l2)
  | [], a, x, l2, h => ⟨h.1, ⟨rfl, h.2.1, h.2.2⟩⟩
  | y :: l1, a, x, l2, h => by
    obtain ⟨h1, h2, h3⟩ := h
    obtain ⟨h4, h5⟩ := isList_append l1 _ x l2 h3
    exact ⟨⟨h1, h2, h4⟩, h5⟩

theorem isSeg_congr {m m' : Memory} : ∀ (xs : List Nat) (a b : Nat),
    (∀ x ∈ xs, (m' x).next = (m x).next) → isSeg m a xs b → isSeg m' a xs b
  | [], _, _, _, h => h
  | x :: xs, a, b, hm, h => by
    obtain ⟨h1, h2, h3⟩ := h
    refine ⟨h1, h2, ?_⟩
    rw [hm x (List.mem_cons_self _ _)]
    exact isSeg_congr xs _ _ (fun y hy => hm y (List.mem_cons_of_mem _ hy)) h3

/-- Redirecting the link of the last node of a segment redirects the segment. -/
theorem isSeg_redirect {m m' : Memory} : ∀ (init : List Nat) (a rn b : Nat),
    isSeg m a (init ++ [rn]) b → rn ∉ init →
    (∀ x ∈ init, (m' x).next = (m x).next) → isSeg m' a (init ++ [rn]) (m' rn).next
  | [], a, rn, b, h, _, _ => ⟨h.1, h.2.1, rfl⟩
  | y :: init, a, rn, b, h, hn, hm => by
    obtain ⟨h1, h2, h3⟩ := h
    refine ⟨h1, h2, ?_⟩
    rw [hm y (List.mem_cons_self _ _)]
    exact isSeg_redirect init _ rn b h3 (fun hx => hn (List.mem_cons_of_mem _ hx))
      (fun x hx => hm x (List.mem_cons_of_mem _ hx))

/-- The scan of `getNextAvailableNode` over nodes whose successors are too
small stops at the node in front of the first block that fits. -/

theorem isSeg_last {m : Memory} : ∀ (init : List Nat) (a rn b : Nat),
    isSeg m a (init ++ [rn]) b → rn ≠ 0 ∧ (m rn).next = b ∧ a ≠ 0 ∧ a ∈ init ++ [rn]
  | [], a, rn, b, h => ⟨h.2.1, h.2.2, h.1 ▸ h.2.1, by simp [h.1]⟩
  | y :: init, a, rn, b, h => by
    obtain ⟨h1, h2, h3⟩ := h
    obtain ⟨k1, k2, _, _⟩ := isSeg_last init _ rn b h3
    exact ⟨k1, k2, h1 ▸ h2, by simp [h1]⟩

theorem runs_cons (P : Params) : ∀ (y : Nat × Nat) (rest : List (Nat × Nat)),
    ∃ g0 gs, runs P (y :: rest) = (y :: g0) :: gs
  | y, [] => ⟨[], [], rfl⟩
  | y, z :: rest => by
    obtain ⟨g0, gs, h⟩ := runs_cons P z rest
    by_cases hc : addW (addW y.1 P.NODESIZE) y.2 = z.1
    · exact ⟨z :: g0, gs, by simp [runs, h, hc]⟩
    · exact ⟨[], (z :: g0) :: gs, by simp [runs, h, hc]⟩

theorem addW_end (a n s u : Nat) :
    addW (addW a n) (addW (addW s n) u) = addW (addW (addW (addW a n) s) n) u := by
  unfold addW
  simp only [Nat.mod_add_mod, Nat.add_mod_mod]
  congr 1
  omega

/-- The left-to-right pass, started on a node `(a, acc)` that ends where the
block `(b, t)` ends, produces the merged runs of the list that starts at
`(b, t)`, with `a` and `acc` in place of the first run's address and start
capacity. -/
theorem coalesceFrom_runs (P : Params) : ∀ (rest : List (Nat × Nat)) (a acc b t : Nat)
    (g0 : List (Nat × Nat)) (gs : List (List (Nat × Nat))),
    addW (addW a P.NODESIZE) acc = addW (addW b P.NODESIZE) t →
    runs P ((b, t) :: rest) = ((b, t) :: g0) :: gs →
    coalesceFrom P a acc rest =
      (a, g0.foldl (fun c y => addW (addW c P.NODESIZE) y.2) acc) :: gs.map (mergeRun P)
  | [], a, acc, b, t, g0, gs, _, hr => by
    simp only [runs, List.cons.injEq, and_true] at hr
    obtain ⟨⟨_, rfl⟩, rfl⟩ := hr
    simp [coalesceFrom]
  | (c, u) :: rest, a, acc, b, t, g0, gs, he, hr => by
    obtain ⟨g1, gs1, h1⟩ := runs_cons P (c, u) rest
    by_cases hc : addW (addW b P.NODESIZE) t = c
    · have hc' : addW (addW a P.NODESIZE) acc = c := he.trans hc
      simp only [runs, h1, hc, ↓reduceIte, List.cons.injEq, true_and] at hr
      obtain ⟨rfl, rfl⟩ := hr
      have hend : addW (addW a P.NODESIZE) (addW (addW acc P.NODESIZE) u)
          = addW (addW c P.NODESIZE) u := by
        rw [addW_end, hc']
      have ih := coalesceFrom_runs P rest a (addW (addW acc P.NODESIZE) u) c u g1 gs1 hend h1
      simp [coalesceFrom, hc', ih]
    · have hc' : ¬ addW (addW a P.NODESIZE) acc = c := fun h => hc (he.symm.trans h)
      simp only [runs, h1, hc, ↓reduceIte, List.cons.injEq, true_and] at hr
      obtain ⟨rfl, rfl⟩ := hr
      have ih := coalesceFrom_runs P rest c u c u g1 gs1 rfl h1
      simp [coalesceFrom, hc', ih, mergeRun, runCap]

theorem coalesceFrom_eq_runs (P : Params) (a s : Nat) (rest : List (Nat × Nat)) :
    coalesceFrom P a s rest = (runs P ((a, s) :: rest)).map (mergeRun P) := by
  obtain ⟨g0, gs, h⟩ := runs_cons P (a, s) rest
  rw [coalesceFrom_runs P rest a s a s g0 gs rfl h, h]
  simp [mergeRun, runCap]

theorem tracked_append (P : Params) (l1 l2 : List (Nat × Nat)) :
    tracked P (l1 ++ l2) = tracked P l1 + tracked P l2 := by
  simp [tracked]

theorem runs_flatten (P : Params) : ∀ (bs : List (Nat × Nat)), (runs P bs).flatten = bs
  | [] => rfl
  | [x] => rfl
  | x :: y :: rest => by
    have ih := runs_flatten P (y :: rest)
    obtain ⟨g0, gs, h⟩ := runs_cons P y rest
    rw [h] at ih
    by_cases hc : addW (addW x.1 P.NODESIZE) x.2 = y.1
    · simp only [runs, h, hc, ↓reduceIte]
      simpa using ih
    · simp only [runs, h, hc, ↓reduceIte]
      simpa using ih

theorem runs_ne_nil (P : Params) : ∀ (bs : List (Nat × Nat)), ∀ r ∈ runs P bs, r ≠ []
  | [], r, h => by simp [runs] at h
  | [x], r, h => by
    simp only [runs, List.mem_singleton] at h
    simp [h]
  | x :: y :: rest, r, h => by
    have ih := runs_ne_nil P (y :: rest)
    obtain ⟨g0, gs, hg⟩ := runs_cons P y rest
    rw [hg] at ih
    by_cases hc : addW (addW x.1 P.NODESIZE) x.2 = y.1
    · simp only [runs, hg, hc, ↓reduceIte, List.mem_cons] at h
      rcases h with rfl | h
      · simp
      · exact ih r (List.mem_cons_of_mem _ h)
    · simp only [runs, hg, hc, ↓reduceIte, List.mem_cons] at h
      rcases h with rfl | rfl | h
      · simp
      · simp
      · exact ih r (List.mem_cons_of_mem _ h)

theorem runs_chain (P : Params) : ∀ (bs : List (Nat × Nat)),
    ∀ r ∈ runs P bs, r.Chain' (contiguous P)
  | [], r, h => by simp [runs] at h
  | [x], r, h => by
    simp only [runs, List.mem_singleton] at h
    simp [h]
  | x :: y :: rest, r, h => by
    have ih := runs_chain P (y :: rest)
    obtain ⟨g0, gs, hg⟩ := runs_cons P y rest
    rw [hg] at ih
    by_cases hc : addW (addW x.1 P.NODESIZE) x.2 = y.1
    · simp only [runs, hg, hc, ↓reduceIte, List.mem_cons] at h
      rcases h with rfl | h
      · exact List.Chain'.cons hc (ih _ (List.mem_cons_self _ _))
      · exact ih r (List.mem_cons_of_mem _ h)
    · simp only [runs, hg, hc, ↓reduceIte, List.mem_cons] at h
      rcases h with rfl | rfl | h
      · exact List.chain'_singleton _
      · exact ih _ (List.mem_cons_self _ _)
      · exact ih r (List.mem_cons_of_mem _ h)

theorem tracked_cons (P : Params) (x : Nat × Nat) (l : List (Nat × Nat)) :
    tracked P (x :: l) = P.NODESIZE + x.2 + tracked P l := by
  simp [tracked]

theorem tracked_eq_sum (P : Params) : ∀ (l : List (Nat × Nat)),
    tracked P l = (l.map Prod.snd).sum + l.length * P.NODESIZE
  | [] => by simp [tracked]
  | x :: l => by
    rw [tracked_cons, tracked_eq_sum P l]
    simp only [List.map_cons, List.sum_cons, List.length_cons]
    ring

theorem exactCap_cons (P : Params) (x : Nat × Nat) (l : List (Nat × Nat)) :
    exactCap P (x :: l) = x.2 + tracked P l := by
  rw [tracked_eq_sum]
  simp only [exactCap, List.map_cons, List.sum_cons, List.length_cons, Nat.add_sub_cancel]
  ring

theorem foldCap_mod (P : Params) : ∀ (l : List (Nat × Nat)) (acc : Nat),
    (l.foldl (fun c y => addW (addW c P.NODESIZE) y.2) acc) % W = (acc + tracked P l) % W
  | [], acc => by simp [tracked]
  | y :: l, acc => by
    rw [List.foldl_cons, foldCap_mod P l, tracked_cons]
    unfold addW
    have hW : W = 18446744073709551616 := by unfold W; norm_num
    rw [hW]
    omega

theorem foldCap_exact (P : Params) : ∀ (l : List (Nat × Nat)) (acc : Nat),
    acc + tracked P l < W →
    l.foldl (fun c y => addW (addW c P.NODESIZE) y.2) acc = acc + tracked P l
  | [], acc, _ => by simp [tracked]
  | y :: l, acc, h => by
    rw [tracked_cons] at h
    have e1 : addW acc P.NODESIZE = acc + P.NODESIZE := addW_eq _ _ (by omega)
    have e2 : addW (acc + P.NODESIZE) y.2 = acc + P.NODESIZE + y.2 := addW_eq _ _ (by omega)
    rw [List.foldl_cons, e1, e2, foldCap_exact P l _ (by omega), tracked_cons]
    omega

theorem runCap_mod (P : Params) (r : List (Nat × Nat)) :
    runCap P r % W = exactCap P r % W := by
  cases r with
  | nil => simp [runCap, exactCap]
  | cons x l => rw [exactCap_cons]; exact foldCap_mod P l x.2

theorem runCap_exact (P : Params) (r : List (Nat × Nat)) (h : exactCap P r < W) :
    runCap P r = exactCap P r := by
  cases r with
  | nil => simp [runCap, exactCap]
  | cons x l =>
    rw [exactCap_cons] at h ⊢
    exact foldCap_exact P l x.2 h

theorem tracked_run (P : Params) (r : List (Nat × Nat)) (h : r ≠ []) :
    tracked P r = P.NODESIZE + exactCap P r := by
  cases r with
  | nil => exact absurd rfl h
  | cons x l => rw [tracked_cons, exactCap_cons]; omega

theorem tracked_merged_mod (P : Params) : ∀ (rs : List (List (Nat × Nat))),
    (∀ r ∈ rs, r ≠ []) → tracked P (rs.map (mergeRun P)) % W = tracked P rs.flatten % W
  | [], _ => rfl
  | r :: rs, h => by
    have ih := tracked_merged_mod P rs (fun r hr => h r (List.mem_cons_of_mem _ hr))
    have hr := tracked_run P r (h r (List.mem_cons_self _ _))
    have hm := runCap_mod P r
    simp only [List.map_cons, List.flatten_cons, tracked_cons, tracked_append, hr, mergeRun]
    have h1 : (P.NODESIZE + runCap P r) % W = (P.NODESIZE + exactCap P r) % W := by
      rw [Nat.add_mod, hm, ← Nat.add_mod]
    rw [Nat.add_mod, h1, ih, ← Nat.add_mod]

theorem tracked_merged_exact (P : Params) : ∀ (rs : List (List (Nat × Nat))),
    (∀ r ∈ rs, r ≠ []) → tracked P rs.flatten < W →
    tracked P (rs.map (mergeRun P)) = tracked P rs.flatten
  | [], _, _ => rfl
  | r :: rs, h, hW => by
    have hr := tracked_run P r (h r (List.mem_cons_self _ _))
    simp only [List.flatten_cons, tracked_append] at hW
    have ih := tracked_merged_exact P rs (fun r hr => h r (List.mem_cons_of_mem _ hr))
      (by omega)
    have hm := runCap_exact P r (by omega)
    simp only [List.map_cons, List.flatten_cons, tracked_cons, tracked_append, hr, mergeRun, hm,
      ih]

theorem runs_maximal (P : Params) : ∀ (bs : List (Nat × Nat)),
    (runs P bs).Chain' (fun r1 r2 => ∀ x ∈ r1.getLast?, ∀ y ∈ r2.head?, ¬ contiguous P x y)
  | [] => List.chain'_nil
  | [x] => List.chain'_singleton _
  | x :: y :: rest => by
    have ih := runs_maximal P (y :: rest)
    obtain ⟨g0, gs, hg⟩ := runs_cons P y rest
    rw [hg] at ih
    by_cases hc : addW (addW x.1 P.NODESIZE) x.2 = y.1
    · simp only [runs, hg, hc, ↓reduceIte]
      cases gs with
      | nil => exact List.chain'_singleton _
      | cons g' gs' =>
        rw [List.chain'_cons] at ih ⊢
        refine ⟨?_, ih.2⟩
        intro a ha
        apply ih.1 a
        simpa [List.getLast?_cons_cons] using ha
    · simp only [runs, hg, hc, ↓reduceIte]
      refine List.Chain'.cons ?_ ih
      intro a ha b hb
      simp only [List.getLast?_singleton, Option.mem_def, Option.some.injEq] at ha
      simp only [List.head?_cons, Option.mem_def, Option.some.injEq] at hb
      subst ha; subst hb
      exact hc

theorem insertAddr_spaced {addr : Nat} : ∀ {xs : List Nat}, spaced xs →
    (∀ x ∈ xs, apart addr x) → spaced (insertAddr addr xs)
  | [], _, _ => List.pairwise_singleton _ _
  | x :: xs, hs, hap => by
    unfold spaced at hs ⊢
    unfold insertAddr
    have hx := hap x (List.mem_cons_self _ _)
    unfold apart at hx
    split
    · refine List.pairwise_cons.mpr ⟨?_, hs⟩
      intro y hy
      rcases List.mem_cons.mp hy with rfl | hy
      · omega
      · have := (List.pairwise_cons.mp hs).1 y hy
        omega
    · refine List.pairwise_cons.mpr ⟨?_, ?_⟩
      · intro y hy
        rcases mem_insertAddr.mp hy with rfl | hy
        · omega
        · exact (List.pairwise_cons.mp hs).1 y hy
      · exact insertAddr_spaced (List.pairwise_cons.mp hs).2
          (fun y hy => hap y (List.mem_cons_of_mem _ hy))

theorem insertAddr_length (addr : Nat) : ∀ (l : List Nat),
    (insertAddr addr l).length = l.length + 1
  | [] => rfl
  | x :: l => by
    unfold insertAddr
    split
    · simp
    · simp [insertAddr_length addr l]

theorem not_mem_of_apart {addr : Nat} {xs : List Nat} (h : ∀ x ∈ xs, apart addr x) :
    addr ∉ xs := fun hmem => by
  have := h addr hmem
  unfold apart at this
  omega

/-- The three stores of an insertion after the node `c`: the header `addr`
receives `size` and the successor `nx`, and `c` is linked to `addr`. -/
theorem link_after (m : Memory) (size nx addr c : Nat) (ha : addr ≠ 0) (haW : addr < W)
    (hnx : nx < W) (hap : apart addr c) :
    let mfin := setNext (makeNewNode m size nx addr).1 c addr
    (mfin c).next = addr ∧ (mfin addr).next = nx ∧ (mfin addr).size = size % W ∧
    (mfin c).size = (m c).size ∧
    (∀ a, apart addr a → apart c a → mfin a = m a) := by
  intro mfin
  have hca : apart c addr := apart_symm hap
  refine ⟨?_, ?_, ?_, ?_, ?_⟩
  · show (setNext _ c addr c).next = addr
    rw [setNext_next_self, Nat.mod_eq_of_lt haW]
  · show (setNext _ c addr addr).next = nx
    rw [setNext_apart _ _ _ _ hca, makeNewNode_next_self _ _ _ _ ha, Nat.mod_eq_of_lt hnx]
  · show (setNext _ c addr addr).size = size % W
    rw [setNext_apart _ _ _ _ hca, makeNewNode_size_self _ _ _ _ ha]
  · show (setNext _ c addr c).size = (m c).size
    rw [setNext_size_self, makeNewNode_apart _ _ _ _ _ hap]
  · intro a h1 h2
    show setNext _ c addr a = m a
    rw [setNext_apart _ _ _ _ h2, makeNewNode_apart _ _ _ _ _ h1]

theorem insertFreelistScan_spec (addr size : Nat) (m : Memory) (ha : addr ≠ 0) (haW : addr < W) :
    ∀ (rest : List Nat) (c fuel : Nat),
    isList m c (c :: rest) → spaced (c :: rest) → c + 16 ≤ addr → (∀ x ∈ rest, apart addr x) →
    rest.length < fuel →
    ∃ (m1 : Memory) (curr : Nat) (added : Bool),
      insertFreelistScan addr size fuel m c = .ok (m1, curr, added) ∧ curr ≠ 0 ∧
      ∀ mfin, mfin = (if added = false then setNext (makeNewNode m1 size 0 addr).1 curr
                        (makeNewNode m1 size 0 addr).2 else m1) →
        isList mfin c (c :: insertAddr addr rest) ∧ (mfin addr).size = size % W ∧
        (∀ a ∈ c :: rest, (mfin a).size = (m a).size) ∧
        (∀ a, apart addr a → (∀ x ∈ c :: rest, apart x a) → mfin a = m a) := by
  intro rest
  induction rest with
  | nil =>
    intro c fuel hl _ hca _ hf
    obtain ⟨_, hc, hn⟩ := hl
    have hn' : (m c).next = 0 := hn
    obtain ⟨f, rfl⟩ : ∃ f, fuel = f + 1 := ⟨fuel - 1, by simp at hf; omega⟩
    refine ⟨m, c, false, ?_, hc, ?_⟩
    · simp [insertFreelistScan, hc, hn', bind, Except.bind, pure, Except.pure]
    · intro mfin hm
      simp only [↓reduceIte, makeNewNode_snd] at hm
      subst hm
      obtain ⟨k1, k2, k3, k4, k5⟩ := link_after m size 0 addr c ha haW W_pos (Or.inr hca)
      refine ⟨⟨rfl, hc, ?_, ha, ?_⟩, k3, ?_, ?_⟩
      · exact k1
      · show (setNext _ c addr addr).next = 0
        exact k2
      · intro a hmem
        rcases List.mem_cons.mp hmem with rfl | h
        · exact k4
        · exact absurd h (List.not_mem_nil _)
      · intro a h1 h2
        exact k5 a h1 (h2 c (List.mem_cons_self _ _))
  | cons d rest ih =>
    intro c fuel hl hs hca hnot hf
    obtain ⟨_, hc, hcd, hd, hn⟩ := hl
    obtain ⟨f, rfl⟩ : ∃ f, fuel = f + 1 := ⟨fuel - 1, by simp at hf; omega⟩
    have hf' : rest.length < f := by simp at hf; omega
    unfold spaced at hs
    rw [List.pairwise_cons] at hs
    obtain ⟨hcl, hs'⟩ := hs
    have hcd16 : c + 16 ≤ d := hcl d (List.mem_cons_self _ _)
    have hlt : c < d := by omega
    have had : apart addr d := hnot d (List.mem_cons_self _ _)
    have hdW : d < W := hcd ▸ next_lt m c
    by_cases hins : addr < d
    · -- the new node goes between `c` and `d`
      refine ⟨setNext (makeNewNode m size d addr).1 c (makeNewNode m size d addr).2, c, true,
        ?_, hc, ?_⟩
      · have hca' : c < addr := by omega
        simp [insertFreelistScan, hc, hcd, hd, hca', hins, bind, Except.bind, pure, Except.pure]
      · intro mfin hm
        simp only [Bool.true_eq_false, ↓reduceIte, makeNewNode_snd] at hm
        subst hm
        obtain ⟨k1, k2, k3, k4, k5⟩ := link_after m size d addr c ha haW hdW (Or.inr hca)
        have hfar : ∀ x ∈ d :: rest,
            setNext (makeNewNode m size d addr).1 c addr x = m x := fun x hx =>
          k5 x (hnot x hx) (Or.inl (hcl x hx))
        refine ⟨?_, k3, ?_, ?_⟩
        · have hi : insertAddr addr (d :: rest) = addr :: d :: rest := by
            simp [insertAddr, hins]
          rw [hi]
          refine ⟨rfl, hc, k1, ha, k2, hd, ?_⟩
          rw [hfar d (List.mem_cons_self _ _)]
          refine isList_congr rest _ (fun x hx => ?_) hn
          rw [hfar x (List.mem_cons_of_mem _ hx)]
        · intro a hmem
          rcases List.mem_cons.mp hmem with rfl | h
          · exact k4
          · rw [hfar a h]
        · intro a h1 h2
          exact k5 a h1 (h2 c (List.mem_cons_self _ _))
    · -- advance to `d`
      have hda : d + 16 ≤ addr := by unfold apart at had; omega
      have hstep : insertFreelistScan addr size (f + 1) m c
          = insertFreelistScan addr size f m d := by
        simp [insertFreelistScan, hc, hcd, hd, hins, bind, Except.bind, pure, Except.pure]
      obtain ⟨m1, curr, added, hrun, hcur, hpost⟩ :=
        ih d f ⟨rfl, hd, hn⟩ hs' hda (fun x hx => hnot x (List.mem_cons_of_mem _ hx)) hf'
      refine ⟨m1, curr, added, hstep.trans hrun, hcur, ?_⟩
      intro mfin hm
      obtain ⟨h1, h2, h3, h4⟩ := hpost mfin hm
      have hmc : mfin c = m c :=
        h4 c (Or.inr hca) (fun x hx => Or.inr (hcl x hx))
      have hi : insertAddr addr (d :: rest) = d :: insertAddr addr rest := by
        simp [insertAddr, hins]
      rw [hi]
      refine ⟨⟨rfl, hc, ?_⟩, h2, ?_, ?_⟩
      · rw [hmc, hcd]; exact h1
      · intro a hmem
        rcases List.mem_cons.mp hmem with rfl | h
        · rw [hmc]
        · exact h3 a h
      · intro a k1 k2
        exact h4 a k1 (fun x hx => k2 x (List.mem_cons_of_mem _ hx))

theorem insertFreelistLink_spec (fuel addr size : Nat) (s : State) (xs : List Nat)
    (hl : isList s.mem s.freelist xs) (hs : spaced xs) (hne : xs ≠ [])
    (hfW : s.freelist < W) (ha : addr ≠ 0) (haW : addr < W) (hnot : ∀ x ∈ xs, apart addr x)
    (hf : xs.length ≤ fuel) :
    ∃ s', insertFreelistLink fuel addr size s = .ok s' ∧
      isList s'.mem s'.freelist (insertAddr addr xs) ∧ (s'.mem addr).size = size % W ∧
      (∀ a ∈ xs, (s'.mem a).size = (s.mem a).size) ∧
      s'.totalmalloc = s.totalmalloc ∧ s'.host = s.host := by
  cases xs with
  | nil => exact absurd rfl hne
  | cons c rest =>
    obtain ⟨hc, hc0, hn⟩ := hl
    have hfl : s.freelist ≠ 0 := hc ▸ hc0
    have hac : apart addr c := hnot c (List.mem_cons_self _ _)
    unfold insertFreelistLink
    simp only [hfl, ↓reduceIte]
    by_cases hlt : addr < c
    · simp only [hc, hlt, ↓reduceIte, pure, Except.pure]
      refine ⟨_, rfl, ?_, ?_, ?_, rfl, rfl⟩
      · have hi : insertAddr addr (c :: rest) = addr :: c :: rest := by simp [insertAddr, hlt]
        rw [hi]
        refine ⟨by simp [makeNewNode_snd], ha, ?_⟩
        show isList (makeNewNode s.mem size c addr).1 ((makeNewNode s.mem size c addr).1 addr).next
          (c :: rest)
        have hcW : c < W := hc ▸ hfW
        rw [makeNewNode_next_self _ _ _ _ ha, Nat.mod_eq_of_lt hcW]
        refine isList_congr (c :: rest) _ (fun x hx => ?_) ⟨rfl, hc0, hn⟩
        rw [makeNewNode_apart _ _ _ _ _ (hnot x hx)]
      · exact makeNewNode_size_self _ _ _ _ ha
      · intro a hmem
        show ((makeNewNode s.mem size c addr).1 a).size = (s.mem a).size
        rw [makeNewNode_apart _ _ _ _ _ (hnot a hmem)]
    · have hca : c + 16 ≤ addr := by unfold apart at hac; omega
      have hfuel : rest.length < fuel := by simpa [Nat.lt_iff_add_one_le] using hf
      obtain ⟨m1, curr, added, hrun, hcur, hpost⟩ :=
        insertFreelistScan_spec addr size s.mem ha haW rest c fuel ⟨rfl, hc0, hn⟩ hs hca
          (fun x hx => hnot x (List.mem_cons_of_mem _ hx)) hfuel
      obtain ⟨h1, h2, h3, _⟩ := hpost _ rfl
      have hi : insertAddr addr (c :: rest) = c :: insertAddr addr rest := by
        simp [insertAddr, hlt]
      rw [hi]
      simp only [hc, hlt, ↓reduceIte, hrun, bind, Except.bind, pure, Except.pure]
      cases added with
      | false =>
        simp only [↓reduceIte, wrNext_ne hcur] at h1 h2 h3 ⊢
        exact ⟨_, rfl, h1, h2, h3, rfl, rfl⟩
      | true =>
        simp only [Bool.true_eq_false, ↓reduceIte] at h1 h2 h3 ⊢
        exact ⟨_, rfl, h1, h2, h3, rfl, rfl⟩

theorem insertNodeScan_spec (addr size : Nat) (m : Memory) (ha : addr ≠ 0) (haW : addr < W) :
    ∀ (rest : List Nat) (c fuel : Nat),
    isList m c (c :: rest) → spaced (c :: rest) → c + 16 ≤ addr → (∀ x ∈ rest, apart addr x) →
    rest.length < fuel →
    ∃ (curr : Nat), insertNodeScan m addr fuel c = .ok curr ∧ curr ≠ 0 ∧
      ∀ mfin, mfin = setNext (makeNewNode m size (m curr).next addr).1 curr
                        (makeNewNode m size (m curr).next addr).2 →
        isList mfin c (c :: insertAddr addr rest) ∧ (mfin addr).size = size % W ∧
        (∀ a ∈ c :: rest, (mfin a).size = (m a).size) ∧
        (∀ a, apart addr a → (∀ x ∈ c :: rest, apart x a) → mfin a = m a) := by
  intro rest
  induction rest with
  | nil =>
    intro c fuel hl _ hca _ hf
    obtain ⟨_, hc, hn⟩ := hl
    have hn' : (m c).next = 0 := hn
    obtain ⟨f, rfl⟩ : ∃ f, fuel = f + 1 := ⟨fuel - 1, by simp at hf; omega⟩
    refine ⟨c, ?_, hc, ?_⟩
    · simp [insertNodeScan, hc, hn', bind, Except.bind, pure, Except.pure]
    · intro mfin hm
      simp only [hn', makeNewNode_snd] at hm
      subst hm
      obtain ⟨k1, k2, k3, k4, k5⟩ := link_after m size 0 addr c ha haW W_pos (Or.inr hca)
      refine ⟨⟨rfl, hc, ?_, ha, ?_⟩, k3, ?_, ?_⟩
      · exact k1
      · show (setNext _ c addr addr).next = 0
        exact k2
      · intro a hmem
        rcases List.mem_cons.mp hmem with rfl | h
        · exact k4
        · exact absurd h (List.not_mem_nil _)
      · intro a h1 h2
        exact k5 a h1 (h2 c (List.mem_cons_self _ _))
  | cons d rest ih =>
    intro c fuel hl hs hca hnot hf
    obtain ⟨_, hc, hcd, hd, hn⟩ := hl
    obtain ⟨f, rfl⟩ : ∃ f, fuel = f + 1 := ⟨fuel - 1, by simp at hf; omega⟩
    have hf' : rest.length < f := by simp at hf; omega
    unfold spaced at hs
    rw [List.pairwise_cons] at hs
    obtain ⟨hcl, hs'⟩ := hs
    have hcd16 : c + 16 ≤ d := hcl d (List.mem_cons_self _ _)
    have hlt : c < d := by omega
    have had : apart addr d := hnot d (List.mem_cons_self _ _)
    have hdW : d < W := hcd ▸ next_lt m c
    by_cases hins : addr < d
    · -- the scan stops at `c`: the new node goes between `c` and `d`
      refine ⟨c, ?_, hc, ?_⟩
      · have : ¬ d < addr := by omega
        simp [insertNodeScan, hc, hcd, hd, this, bind, Except.bind, pure, Except.pure]
      · intro mfin hm
        simp only [hcd, makeNewNode_snd] at hm
        subst hm
        obtain ⟨k1, k2, k3, k4, k5⟩ := link_after m size d addr c ha haW hdW (Or.inr hca)
        have hfar : ∀ x ∈ d :: rest,
            setNext (makeNewNode m size d addr).1 c addr x = m x := fun x hx =>
          k5 x (hnot x hx) (Or.inl (hcl x hx))
        refine ⟨?_, k3, ?_, ?_⟩
        · have hi : insertAddr addr (d :: rest) = addr :: d :: rest := by
            simp [insertAddr, hins]
          rw [hi]
          refine ⟨rfl, hc, k1, ha, k2, hd, ?_⟩
          rw [hfar d (List.mem_cons_self _ _)]
          refine isList_congr rest _ (fun x hx => ?_) hn
          rw [hfar x (List.mem_cons_of_mem _ hx)]
        · intro a hmem
          rcases List.mem_cons.mp hmem with rfl | h
          · exact k4
          · rw [hfar a h]
        · intro a h1 h2
          exact k5 a h1 (h2 c (List.mem_cons_self _ _))
    · -- advance to `d`
      have hda : d + 16 ≤ addr := by unfold apart at had; omega
      have hda' : d < addr := by omega
      have hstep : insertNodeScan m addr (f + 1) c = insertNodeScan m addr f d := by
        simp [insertNodeScan, hc, hcd, hd, hda', bind, Except.bind, pure, Except.pure]
      obtain ⟨curr, hrun, hcur, hpost⟩ :=
        ih d f ⟨rfl, hd, hn⟩ hs' hda (fun x hx => hnot x (List.mem_cons_of_mem _ hx)) hf'
      refine ⟨curr, hstep.trans hrun, hcur, ?_⟩
      intro mfin hm
      obtain ⟨h1, h2, h3, h4⟩ := hpost mfin hm
      have hmc : mfin c = m c :=
        h4 c (Or.inr hca) (fun x hx => Or.inr (hcl x hx))
      have hi : insertAddr addr (d :: rest) = d :: insertAddr addr rest := by
        simp [insertAddr, hins]
      rw [hi]
      refine ⟨⟨rfl, hc, ?_⟩, h2, ?_, ?_⟩
      · rw [hmc, hcd]; exact h1
      · intro a hmem
        rcases List.mem_cons.mp hmem with rfl | h
        · rw [hmc]
        · exact h3 a h
      · intro a k1 k2
        exact h4 a k1 (fun x hx => k2 x (List.mem_cons_of_mem _ hx))

theorem insertNode_spec (fuel addr size : Nat) (s : State) (xs : List Nat)
    (hl : isList s.mem s.freelist xs) (hs : spaced xs) (hne : xs ≠ [])
    (hfW : s.freelist < W) (ha : addr ≠ 0) (haW : addr < W) (hnot : ∀ x ∈ xs, apart addr x)
    (hf : xs.length ≤ fuel) :
    ∃ s', insertNode fuel size addr s = .ok s' ∧
      isList s'.mem s'.freelist (insertAddr addr xs) ∧ (s'.mem addr).size = size % W ∧
      (∀ a ∈ xs, (s'.mem a).size = (s.mem a).size) ∧
      s'.totalmalloc = s.totalmalloc ∧ s'.host = s.host := by
  cases xs with
  | nil => exact absurd rfl hne
  | cons c rest =>
    obtain ⟨hc, hc0, hn⟩ := hl
    have hfl : s.freelist ≠ 0 := hc ▸ hc0
    have hac : apart addr c := hnot c (List.mem_cons_self _ _)
    unfold insertNode
    simp only [hfl, ↓reduceIte]
    by_cases hlt : addr < c
    · simp only [hc, hlt, ↓reduceIte, pure, Except.pure]
      refine ⟨_, rfl, ?_, ?_, ?_, rfl, rfl⟩
      · have hi : insertAddr addr (c :: rest) = addr :: c :: rest := by simp [insertAddr, hlt]
        rw [hi]
        refine ⟨by simp [makeNewNode_snd], ha, ?_⟩
        show isList (makeNewNode s.mem size c addr).1 ((makeNewNode s.mem size c addr).1 addr).next
          (c :: rest)
        have hcW : c < W := hc ▸ hfW
        rw [makeNewNode_next_self _ _ _ _ ha, Nat.mod_eq_of_lt hcW]
        refine isList_congr (c :: rest) _ (fun x hx => ?_) ⟨rfl, hc0, hn⟩
        rw [makeNewNode_apart _ _ _ _ _ (hnot x hx)]
      · exact makeNewNode_size_self _ _ _ _ ha
      · intro a hmem
        show ((makeNewNode s.mem size c addr).1 a).size = (s.mem a).size
        rw [makeNewNode_apart _ _ _ _ _ (hnot a hmem)]
    · have hca : c + 16 ≤ addr := by unfold apart at hac; omega
      have hfuel : rest.length < fuel := by simpa [Nat.lt_iff_add_one_le] using hf
      obtain ⟨curr, hrun, hcur, hpost⟩ :=
        insertNodeScan_spec addr size s.mem ha haW rest c fuel ⟨rfl, hc0, hn⟩ hs hca
          (fun x hx => hnot x (List.mem_cons_of_mem _ hx)) hfuel
      obtain ⟨h1, h2, h3, _⟩ := hpost _ rfl
      have hi : insertAddr addr (c :: rest) = c :: insertAddr addr rest := by
        simp [insertAddr, hlt]
      rw [hi]
      simp only [hc, hlt, ↓reduceIte, hrun, bind, Except.bind, pure, Except.pure,
        rdNext_ne hcur, wrNext_ne hcur]
      exact ⟨_, rfl, h1, h2, h3, rfl, rfl⟩

/-- A non-adjacent chain in `uintptr_t` arithmetic is one in exact arithmetic,
the addresses being `uintptr_t` values. -/
theorem chain_exact (P : Params) (m : Memory) : ∀ (ys : List Nat), (∀ b ∈ ys, b < W) →
    ys.Chain' (fun a b => ¬ adjacent P m a b) →
    ys.Chain' (fun a b => a + P.NODESIZE + (m a).size ≠ b) := by
  intro ys hmem hch
  induction ys with
  | nil => exact List.chain'_nil
  | cons a l ih =>
    cases l with
    | nil => exact List.chain'_singleton _
    | cons b l =>
      rw [List.chain'_cons] at hch ⊢
      refine ⟨fun heq => hch.1 ?_, ih (fun x hx => hmem x (List.mem_cons_of_mem _ hx)) hch.2⟩
      have hb : b < W := hmem b (by simp)
      unfold adjacent addW
      rw [Nat.mod_add_mod, heq, Nat.mod_eq_of_lt hb]

/-- The pass `combineFreeBlock` on a finite free list whose headers lie at
increasing addresses and share no byte: it returns, keeps the head, and leaves
no node contiguous with its successor. -/
theorem combineFreeBlock_closed (P : Params) (fuel : Nat) (s : State) (xs : List Nat)
    (hl : isList s.mem s.freelist xs) (hs : spaced xs)
    (hw : s.freelist < W) (hf : xs.length ≤ fuel) :
    ∃ (s' : State) (ys : List Nat), combineFreeBlock fuel P s = Except.ok s' ∧
      s'.freelist = s.freelist ∧ isList s'.mem s'.freelist ys ∧ ys.Sublist xs ∧
      ys.Chain' (fun a b => ¬ adjacent P s'.mem a b) ∧
      ys.Chain' (fun a b => a + P.NODESIZE + (s'.mem a).size ≠ b) := by
  have hxW := isList_lt_W xs _ hw hl
  cases xs with
  | nil =>
    have h0 : s.freelist = 0 := hl
    refine ⟨s, [], ?_, rfl, hl, List.Sublist.refl _, List.chain'_nil, List.chain'_nil⟩
    simp [combineFreeBlock, h0, pure, Except.pure]
  | cons c rest =>
    obtain ⟨hc, hc0, hn⟩ := hl
    have hfuel : rest.length < fuel := by simpa [Nat.lt_iff_add_one_le] using hf
    obtain ⟨m', ys, hrun, hly, hsub, hch, _, _⟩ :=
      combineLoop_spec P rest s.mem c fuel ⟨rfl, hc0, hn⟩ hs hfuel
    refine ⟨{ s with mem := m' }, c :: ys, ?_, rfl, ?_, hsub.cons₂ c, hch,
      chain_exact P m' (c :: ys) (fun b hb => hxW b ((hsub.cons₂ c).subset hb)) hch⟩
    · simp [combineFreeBlock, hc, hc0, hrun, bind, Except.bind, pure, Except.pure]
    · show isList m' s.freelist (c :: ys)
      rw [hc]; exact hly

theorem combineFreeBlock_runs (P : Params) (fuel : Nat) (s : State) (xs : List Nat)
    (hl : isList s.mem s.freelist xs) (hs : spaced xs) (hf : xs.length ≤ fuel) :
    ∃ (s' : State) (ys : List Nat), combineFreeBlock fuel P s = Except.ok s' ∧
      s'.freelist = s.freelist ∧ isList s'.mem s'.freelist ys ∧
      blocksOf s'.mem ys = (runs P (blocksOf s.mem xs)).map (mergeRun P) := by
  cases xs with
  | nil =>
    have h0 : s.freelist = 0 := hl
    refine ⟨s, [], ?_, rfl, hl, rfl⟩
    simp [combineFreeBlock, h0, pure, Except.pure]
  | cons c rest =>
    obtain ⟨hc, hc0, hn⟩ := hl
    have hfuel : rest.length < fuel := by simpa [Nat.lt_iff_add_one_le] using hf
    obtain ⟨m', ys, hrun, hly, _, _, hbl, _⟩ :=
      combineLoop_spec P rest s.mem c fuel ⟨rfl, hc0, hn⟩ hs hfuel
    refine ⟨{ s with mem := m' }, c :: ys, ?_, rfl, ?_, ?_⟩
    · simp [combineFreeBlock, hc, hc0, hrun, bind, Except.bind, pure, Except.pure]
    · show isList m' s.freelist (c :: ys)
      rw [hc]; exact hly
    · show blocksOf m' (c :: ys) = _
      rw [hbl, coalesceFrom_eq_runs]
      rfl

theorem insertFreelistLink_freelist_lt (fuel addr size : Nat) (s s' : State)
    (hfW : s.freelist < W) (haW : addr < W)
    (h : insertFreelistLink fuel addr size s = .ok s') : s'.freelist < W := by
  unfold insertFreelistLink at h
  by_cases h0 : s.freelist = 0
  · simp only [h0, ↓reduceIte, makeNewNode_snd] at h
    split at h
    · simp only [pure, Except.pure, Except.ok.injEq] at h
      subst h
      simpa [makeNewNode_snd] using haW
    · simp only [bind_eq_ok] at h
      obtain ⟨⟨m, curr, added⟩, _, h⟩ := h
      dsimp only at h
      split at h
      · simp only [bind_eq_ok, pure, Except.pure, Except.ok.injEq] at h
        obtain ⟨_, _, rfl⟩ := h
        exact haW
      · simp only [pure, Except.pure, Except.ok.injEq] at h
        subst h
        exact haW
  · simp only [h0, ↓reduceIte] at h
    split at h
    · simp only [pure, Except.pure, Except.ok.injEq] at h
      subst h
      simpa [makeNewNode_snd] using haW
    · simp only [bind_eq_ok] at h
      obtain ⟨⟨m, curr, added⟩, _, h⟩ := h
      dsimp only at h
      split at h
      · simp only [bind_eq_ok, pure, Except.pure, Except.ok.injEq] at h
        obtain ⟨_, _, rfl⟩ := h
        exact hfW
      · simp only [pure, Except.pure, Except.ok.injEq] at h
        subst h
        exact hfW

/-- The call `freemem` on a non-empty, finite free list whose headers lie at
increasing addresses and share no byte with each other or with the freed
header: it returns and leaves no node contiguous with its successor. -/
theorem freemem_closed (P : Params) (fuel : Nat) (s : State) (xs : List Nat) (p : Nat)
    (hl : isList s.mem s.freelist xs) (hs : spaced xs)
    (hw : s.freelist < W) (hf : xs.length < fuel) (hne : xs ≠ [])
    (hp : p ≠ 0) (ha : subW p P.NODESIZE ≠ 0) (hn : subW (subW p P.NODESIZE) P.NODESIZE ≠ 0)
    (hnot : ∀ x ∈ xs, apart (subW p P.NODESIZE) x) :
    ∃ (s' : State) (ys : List Nat), freemem fuel P p s = Except.ok s' ∧
      isList s'.mem s'.freelist ys ∧ ys.Sublist (insertAddr (subW p P.NODESIZE) xs) ∧
      ys.Chain' (fun a b => ¬ adjacent P s'.mem a b) ∧
      ys.Chain' (fun a b => a + P.NODESIZE + (s'.mem a).size ≠ b) := by
  obtain ⟨s1, hrun1, hl1, _, _, _, _⟩ :=
    insertFreelistLink_spec fuel (subW p P.NODESIZE)
      (s.mem (subW (subW p P.NODESIZE) P.NODESIZE)).size s xs hl hs hne hw ha (subW_lt _ _) hnot
      (le_of_lt hf)
  have hs1 : spaced (insertAddr (subW p P.NODESIZE) xs) := insertAddr_spaced hs hnot
  have hw1 : s1.freelist < W :=
    insertFreelistLink_freelist_lt _ _ _ s s1 hw (subW_lt _ _) hrun1
  have hlen : (insertAddr (subW p P.NODESIZE) xs).length ≤ fuel := by
    rw [insertAddr_length]; exact hf
  obtain ⟨s2, ys, hrun2, _, hl2, hsub, hc1, hc2⟩ :=
    combineFreeBlock_closed P fuel s1 _ hl1 hs1 hw1 hlen
  refine ⟨s2, ys, ?_, hl2, hsub, hc1, hc2⟩
  simp [freemem, hp, hn, insertFreelist, hrun1, hrun2, bind, Except.bind]

theorem isSeg_isList {m : Memory} : ∀ (l1 : List Nat) (a b : Nat) (l2 : List Nat),
    isSeg m a l1 b → isList m b l2 → isList m a (l1 ++ l2)
  | [], a, b, l2, h1, h2 => by
    have : a = b := h1
    subst this
    exact h2
  | y :: l1, a, b, l2, h1, h2 => by
    obtain ⟨k1, k2, k3⟩ := h1
    exact ⟨k1, k2, isSeg_isList l1 _ b l2 k3 h2⟩

/-- The scan of `insertFreelist` for an address that is already a node of the
increasing list (or lies below all of it) inserts nothing and ends at the last
node. -/
theorem insertFreelistScan_listed (addr size : Nat) (m : Memory) :
    ∀ (rest : List Nat) (c fuel : Nat),
    isList m c (c :: rest) → (c :: rest).Pairwise (· < ·) → (addr ≤ c ∨ addr ∈ rest) →
    rest.length < fuel →
    ∃ l, insertFreelistScan addr size fuel m c = .ok (m, l, false) ∧
      (c :: rest).getLast? = some l := by
  intro rest
  induction rest with
  | nil =>
    intro c fuel hl _ _ hf
    obtain ⟨_, hc, hn⟩ := hl
    have hn' : (m c).next = 0 := hn
    obtain ⟨f, rfl⟩ : ∃ f, fuel = f + 1 := ⟨fuel - 1, by simp at hf; omega⟩
    refine ⟨c, ?_, rfl⟩
    simp [insertFreelistScan, hc, hn', bind, Except.bind, pure, Except.pure]
  | cons d rest ih =>
    intro c fuel hl hs hpos hf
    obtain ⟨_, hc, hcd, hd, hn⟩ := hl
    obtain ⟨f, rfl⟩ : ∃ f, fuel = f + 1 := ⟨fuel - 1, by simp at hf; omega⟩
    have hf' : rest.length < f := by simp at hf; omega
    rw [List.pairwise_cons] at hs
    obtain ⟨hcl, hs'⟩ := hs
    have hlt : c < d := hcl d (List.mem_cons_self _ _)
    have hge : ∀ x ∈ d :: rest, d ≤ x := by
      intro x hx
      rcases List.mem_cons.mp hx with rfl | hx
      · exact le_refl _
      · exact le_of_lt ((List.pairwise_cons.mp hs').1 x hx)
    have hno : ¬ (c < addr ∧ addr < d) := by
      rintro ⟨h1, h2⟩
      rcases hpos with h | h
      · omega
      · have := hge addr h
        omega
    have hpos' : addr ≤ d ∨ addr ∈ rest := by
      rcases hpos with h | h
      · exact Or.inl (by omega)
      · rcases List.mem_cons.mp h with rfl | h
        · exact Or.inl (le_refl _)
        · exact Or.inr h
    have hstep : insertFreelistScan addr size (f + 1) m c
        = insertFreelistScan addr size f m d := by
      simp [insertFreelistScan, hc, hcd, hd, hno, bind, Except.bind, pure, Except.pure]
    obtain ⟨l, hrun, hlast⟩ := ih d f ⟨rfl, hd, hn⟩ hs' hpos' hf'
    exact ⟨l, hstep.trans hrun, by rw [List.getLast?_cons_cons]; exact hlast⟩

/-- The insertion step of `insertFreelist` for a header `addr` that is already a
node of the list, but not its last: the new header is written over the old one
with successor `NULL`, the last node is linked to it, and the list from the
head now ends at `addr`. -/
theorem insertFreelistLink_listed (fuel addr size : Nat) (s : State) (pre post : List Nat)
    (hl : isList s.mem s.freelist (pre ++ addr :: post)) (hs : spaced (pre ++ addr :: post))
    (hpost : post ≠ []) (haW : addr < W) (hf : (pre ++ addr :: post).length ≤ fuel) :
    ∃ s', insertFreelistLink fuel addr size s = .ok s' ∧ s'.freelist = s.freelist ∧
      isList s'.mem s'.freelist (pre ++ [addr]) ∧ (s'.mem addr).size = size % W ∧
      (∀ a ∈ pre, (s'.mem a).size = (s.mem a).size) := by
  have hslt := spaced_lt hs
  obtain ⟨hseg, hla⟩ := isList_append pre _ addr post hl
  have ha : addr ≠ 0 := hla.2.1
  -- the head of the list
  obtain ⟨c, rest, hxs⟩ : ∃ c rest, pre ++ addr :: post = c :: rest := by
    cases pre with
    | nil => exact ⟨addr, post, rfl⟩
    | cons c pre' => exact ⟨c, pre' ++ addr :: post, rfl⟩
  have hmem : addr ∈ c :: rest := by rw [← hxs]; simp
  rw [hxs] at hl hslt hf
  obtain ⟨hc, hc0, hn⟩ := hl
  have hfl : s.freelist ≠ 0 := hc ▸ hc0
  have hnlt : ¬ addr < c := by
    rcases List.mem_cons.mp hmem with h | h
    · omega
    · have := (List.pairwise_cons.mp hslt).1 addr h
      omega
  have hfuel : rest.length < fuel := by simpa [Nat.lt_iff_add_one_le] using hf
  obtain ⟨l, hrun, hlast⟩ := insertFreelistScan_listed addr size s.mem rest c fuel
    ⟨rfl, hc0, hn⟩ hslt (by
      rcases List.mem_cons.mp hmem with h | h
      · exact Or.inl (le_of_eq h)
      · exact Or.inr h) hfuel
  -- the last node lies in `post`
  have hlpost : l ∈ post := by
    rw [← hxs] at hlast
    have e : pre ++ addr :: post = (pre ++ [addr]) ++ post := by simp
    rw [e, List.getLast?_append_of_ne_nil _ hpost] at hlast
    exact List.mem_of_mem_getLast? hlast
  unfold spaced at hs
  obtain ⟨hs1, hs2, hs3⟩ := List.pairwise_append.mp hs
  have hal : addr + 16 ≤ l := (List.pairwise_cons.mp hs2).1 l hlpost
  have hl0 : l ≠ 0 := by omega
  obtain ⟨k1, k2, k3, k4, k5⟩ := link_after s.mem size 0 addr l ha haW W_pos (Or.inl hal)
  have hfar : ∀ x ∈ pre, setNext (makeNewNode s.mem size 0 addr).1 l addr x = s.mem x := by
    intro x hx
    have h1 : x + 16 ≤ addr := hs3 x hx addr (List.mem_cons_self _ _)
    exact k5 x (Or.inr h1) (Or.inr (by omega))
  refine ⟨{ s with mem := setNext (makeNewNode s.mem size 0 addr).1 l addr }, ?_, rfl, ?_, k3, ?_⟩
  · unfold insertFreelistLink
    simp only [hfl, ↓reduceIte]
    simp only [hc, hnlt, ↓reduceIte, hrun, bind, Except.bind, pure, Except.pure,
      wrNext_ne hl0, makeNewNode_snd]
  · refine isSeg_isList pre _ addr [addr] ?_ ⟨rfl, ha, k2⟩
    exact isSeg_congr pre _ _ (fun x hx => by rw [hfar x hx]) hseg
  · intro a hmem
    show (setNext (makeNewNode s.mem size 0 addr).1 l addr a).size = _
    rw [hfar a hmem]

/-- The call `freemem` for a header that is still a node of the free list, but
not its last: it returns, the list is cut after that node, and no node is
contiguous with its successor. -/
theorem freemem_listed_closed (P : Params) (fuel : Nat) (s : State) (xs : List Nat) (p : Nat)
    (hl : isList s.mem s.freelist xs) (hs : spaced xs)
    (hw : s.freelist < W) (hf : xs.length < fuel)
    (hp : p ≠ 0) (hn : subW (subW p P.NODESIZE) P.NODESIZE ≠ 0)
    (hmem : subW p P.NODESIZE ∈ xs) (hlast : xs.getLast? ≠ some (subW p P.NODESIZE)) :
    ∃ (s' : State) (ys : List Nat), freemem fuel P p s = Except.ok s' ∧
      isList s'.mem s'.freelist ys ∧ ys.Sublist xs ∧
      ys.Chain' (fun a b => ¬ adjacent P s'.mem a b) ∧
      ys.Chain' (fun a b => a + P.NODESIZE + (s'.mem a).size ≠ b) := by
  obtain ⟨pre, post, rfl⟩ := List.append_of_mem hmem
  have hpost : post ≠ [] := by
    rintro rfl
    exact hlast (by simp)
  obtain ⟨s1, hrun1, hfl1, hl1, _, _⟩ :=
    insertFreelistLink_listed fuel (subW p P.NODESIZE)
      (s.mem (subW (subW p P.NODESIZE) P.NODESIZE)).size s pre post hl hs hpost (subW_lt _ _)
      (le_of_lt hf)
  have hsub0 : (pre ++ [subW p P.NODESIZE]).Sublist (pre ++ subW p P.NODESIZE :: post) :=
    List.Sublist.append_left (List.Sublist.cons₂ _ (List.nil_sublist _)) pre
  have hs1 : spaced (pre ++ [subW p P.NODESIZE]) := List.Pairwise.sublist hsub0 hs
  have hlen : (pre ++ [subW p P.NODESIZE]).length ≤ fuel := by
    have := hsub0.length_le
    omega
  obtain ⟨s2, ys, hrun2, _, hl2, hsub, hc1, hc2⟩ :=
    combineFreeBlock_closed P fuel s1 _ hl1 hs1 (hfl1 ▸ hw) hlen
  refine ⟨s2, ys, ?_, hl2, hsub.trans hsub0, hc1, hc2⟩
  simp [freemem, hp, hn, insertFreelist, hrun1, hrun2, bind, Except.bind]
theorem getNextAvailableNodeLoop_first (m : Memory) (sz t : Nat) (ht0 : t ≠ 0)
    (ht : sz ≤ (m t).size) :
    ∀ (init : List Nat) (c rn fuel : Nat), isSeg m c (init ++ [rn]) t →
      (∀ a ∈ (init ++ [rn]).tail, (m a).size < sz) → init.length < fuel →
      getNextAvailableNodeLoop m sz fuel c = .ok rn
  | [], c, rn, fuel, h, _, hf => by
    obtain ⟨h1, h2, h3⟩ := h
    have h3' : (m rn).next = t := h3
    obtain ⟨f, rfl⟩ : ∃ f, fuel = f + 1 := ⟨fuel - 1, by simp at hf; omega⟩
    subst h1
    simp [getNextAvailableNodeLoop, h2, h3', ht0, ht, bind, Except.bind, pure, Except.pure]
  | y :: init, c, rn, fuel, h, hsmall, hf => by
    obtain ⟨h1, h2, h3⟩ := h
    obtain ⟨f, rfl⟩ : ∃ f, fuel = f + 1 := ⟨fuel - 1, by simp at hf; omega⟩
    subst h1
    -- the successor of `c` is the first node of `init ++ [rn]`
    have hnext : ∃ d, (init ++ [rn]) = d :: (init ++ [rn]).tail ∧ (m c).next = d ∧ d ≠ 0 := by
      cases init with
      | nil => exact ⟨rn, rfl, h3.1, h3.2.1⟩
      | cons d init' => exact ⟨d, rfl, h3.1, h3.2.1⟩
    obtain ⟨d, hd1, hd2, hd3⟩ := hnext
    have hdsmall : (m d).size < sz := by
      apply hsmall
      show d ∈ (init ++ [rn])
      rw [hd1]; exact List.mem_cons_self _ _
    have hrec := getNextAvailableNodeLoop_first m sz t ht0 ht init (m c).next rn f h3
      (fun a ha => hsmall a (by
        show a ∈ (init ++ [rn])
        exact List.mem_of_mem_tail ha)) (by simp at hf; omega)
    have : ¬ sz ≤ (m d).size := by omega
    simp [getNextAvailableNodeLoop, h2, hd2, hd3, this, bind, Except.bind, pure, Except.pure]
    rw [← hd2]; exact hrec

theorem addW_lt (a b : Nat) : addW a b < W := Nat.mod_lt _ W_pos

/-- The run of `getmem` that splits the successor `t` of the node `rn` found by
the scan, when the header of `rn` shares no byte with the header of `t` nor
with the header of the remainder. -/
theorem getmem_split_next_run (fuel : Nat) (P : Params) (size sz : Nat) (s : State)
    (rn t : Nat) (h1 : 1 ≤ size) (hsz : roundSize size = sz) (hfl : s.freelist ≠ 0)
    (hhead : ¬ sz ≤ (s.mem s.freelist).size)
    (hscan : getNextAvailableNode fuel s sz = .ok rn) (hrn : rn ≠ 0)
    (hnext : (s.mem rn).next = t) (ht0 : t ≠ 0) (ht : sz ≤ (s.mem t).size)
    (hsplit : addW (addW sz P.NODESIZE) P.MINCHUNK ≤ (s.mem t).size)
    (hap1 : apart t rn) (hap2 : apart (addW (addW (addW t P.NODESIZE) sz) 1) rn) :
    getmem fuel P size s = .ok (addW t P.NODESIZE,
      { s with
        mem := setNext (setNext (setSize (makeNewNode s.mem
            (subW (subW (subW (s.mem t).size sz) P.NODESIZE) 1) (s.mem t).next
            (addW (addW (addW t P.NODESIZE) sz) 1)).1 t sz)
          t (addW (addW (addW t P.NODESIZE) sz) 1)) rn (addW (addW (addW t P.NODESIZE) sz) 1) }) := by
  have hpos : ¬ size ≤ 0 := by omega
  generalize hnn : addW (addW (addW t P.NODESIZE) sz) 1 = nn at *
  generalize hnns : subW (subW (subW (s.mem t).size sz) P.NODESIZE) 1 = nns
  have hnnW : nn < W := hnn ▸ addW_lt _ _
  have hA : ((makeNewNode s.mem nns (s.mem t).next nn).1 rn).next = t := by
    rw [makeNewNode_apart _ _ _ _ _ hap2, hnext]
  have hB : (setSize (makeNewNode s.mem nns (s.mem t).next nn).1 t sz rn).next = t := by
    rw [setSize_apart _ _ _ _ hap1, hA]
  have hC : (setNext (setSize (makeNewNode s.mem nns (s.mem t).next nn).1 t sz) t nn rn).next
      = t := by
    rw [setNext_apart _ _ _ _ hap1, hB]
  have hD : (setNext (setSize (makeNewNode s.mem nns (s.mem t).next nn).1 t sz) t nn t).next
      = nn := by
    rw [setNext_next_self, Nat.mod_eq_of_lt hnnW]
  unfold getmem
  simp only [hpos, ↓reduceIte, hsz, hfl, bind, Except.bind, pure, Except.pure, hhead,
    and_false, hscan, hrn, rdNext_ne, hnext, ht0, rdSize_ne, ne_eq, not_false_eq_true,
    ge_iff_le, ht, hsplit, and_self, splitNode, hnn, hnns, makeNewNode_snd, hA, hB, hC, hD,
    wrSize_ne, wrNext_ne]

theorem ne_of_apart {a b : Nat} (h : apart a b) : a ≠ b := by
  unfold apart at h
  omega

/-- First fit, for a list in which the headers in front of the chosen block
share no byte with each other, with the chosen block, or with the header of
the split remainder. -/
theorem getmem_first_fit (fuel : Nat) (P : Params) (size : Nat) (s : State)
    (pre : List Nat) (t : Nat) (post : List Nat) (h1 : 1 ≤ size)
    (hl : isList s.mem s.freelist (pre ++ t :: post))
    (hpre : ∀ a ∈ pre, (s.mem a).size < roundSize size)
    (ht : roundSize size ≤ (s.mem t).size)
    (hsep : (pre ++ [t]).Pairwise apart)
    (hrem : ∀ a ∈ pre, apart a (addW (addW (addW t P.NODESIZE) (roundSize size)) 1))
    (hf : pre.length ≤ fuel) :
    ∃ (s' : State) (b : Nat), getmem fuel P size s = .ok (addW t P.NODESIZE, s') ∧
      isSeg s'.mem s'.freelist pre b ∧ (∀ a ∈ pre, (s'.mem a).size = (s.mem a).size) ∧
      s'.host = s.host ∧ s'.totalmalloc = s.totalmalloc := by
  have hpos : ¬ size ≤ 0 := by omega
  obtain ⟨hseg, hlt⟩ := isList_append pre s.freelist t post hl
  have ht0 : t ≠ 0 := hlt.2.1
  generalize hsz : roundSize size = sz at *
  rcases List.eq_nil_or_concat pre with hnil | ⟨init, rn, hpre_eq⟩
  · -- the head is the first block that fits
    subst hnil
    have hfl : s.freelist = t := hseg
    have hfl0 : s.freelist ≠ 0 := hfl ▸ ht0
    by_cases hsplit : (s.mem t).size ≥ addW (addW sz P.NODESIZE) P.MINCHUNK
    · have hrun : getmem fuel P size s = .ok (addW t P.NODESIZE,
          { s with
            mem := setNext (setSize (makeNewNode s.mem
              (subW (subW (subW (s.mem t).size sz) P.NODESIZE) 1) (s.mem t).next
              (addW (addW (addW t P.NODESIZE) sz) 1)).1 t sz) t
              (makeNewNode s.mem (subW (subW (subW (s.mem t).size sz) P.NODESIZE) 1)
                (s.mem t).next (addW (addW (addW t P.NODESIZE) sz) 1)).2,
            freelist := (makeNewNode s.mem (subW (subW (subW (s.mem t).size sz) P.NODESIZE) 1)
                (s.mem t).next (addW (addW (addW t P.NODESIZE) sz) 1)).2 }) := by
        unfold getmem
        simp only [hpos, ↓reduceIte, hsz, hfl, ht0, bind, Except.bind, pure, Except.pure,
          ne_eq, not_false_eq_true, ge_iff_le, ht, and_self, splitNode, rdSize_ne, rdNext_ne,
          wrSize_ne, wrNext_ne, hsplit.le]
      exact ⟨_, _, hrun, rfl, by simp, rfl, rfl⟩
    · refine ⟨s, _, ?_, rfl, by simp, rfl, rfl⟩
      unfold getmem
      simp only [hpos, ↓reduceIte, hsz, hfl, ht0, bind, Except.bind, pure, Except.pure, ne_eq,
        not_false_eq_true, ge_iff_le, ht, and_self]
      rw [if_neg hsplit]
  · -- the first block that fits is the successor of `rn`
    subst hpre_eq
    simp only [List.concat_eq_append] at *
    obtain ⟨hrn0, hrnt, hfl0, hflmem⟩ := isSeg_last init s.freelist rn t hseg
    have hhead : ¬ sz ≤ (s.mem s.freelist).size := by
      have := hpre _ hflmem; omega
    have hscan : getNextAvailableNode fuel s sz = .ok rn :=
      getNextAvailableNodeLoop_first s.mem sz t ht0 ht init s.freelist rn fuel hseg
        (fun a ha => hpre a (List.mem_of_mem_tail ha)) (by simpa [Nat.lt_iff_add_one_le] using hf)
    obtain ⟨hp1, _, hp3⟩ := List.pairwise_append.mp hsep
    obtain ⟨_, _, hp4⟩ := List.pairwise_append.mp hp1
    have hrt : apart rn t := hp3 rn (by simp) t (by simp)
    have hinit_rn : ∀ x ∈ init, apart x rn := fun x hx => hp4 x hx rn (by simp)
    have hinit_t : ∀ x ∈ init, apart x t := fun x hx => hp3 x (by simp [hx]) t (by simp)
    have hrn_init : rn ∉ init := fun h => ne_of_apart (hinit_rn rn h) rfl
    generalize hnn : addW (addW (addW t P.NODESIZE) sz) 1 = nn at *
    have hrnn : apart rn nn := hrem rn (by simp)
    by_cases hsplit : (s.mem t).size ≥ addW (addW sz P.NODESIZE) P.MINCHUNK
    · have hrun := getmem_split_next_run fuel P size sz s rn t h1 hsz hfl0 hhead hscan hrn0 hrnt
        ht0 ht hsplit (apart_symm hrt) (by rw [hnn]; exact apart_symm hrnn)
      rw [hnn] at hrun
      have hfar : ∀ x, apart x t → apart x nn →
          setNext (setSize (makeNewNode s.mem (subW (subW (subW (s.mem t).size sz) P.NODESIZE) 1)
            (s.mem t).next nn).1 t sz) t nn x = s.mem x := by
        intro x k1 k2
        rw [setNext_apart _ _ _ _ (apart_symm k1), setSize_apart _ _ _ _ (apart_symm k1),
          makeNewNode_apart _ _ _ _ _ (apart_symm k2)]
      refine ⟨_, _, hrun, isSeg_redirect init s.freelist rn t hseg hrn_init (fun x hx => ?_),
        ?_, rfl, rfl⟩
      · show (setNext _ rn nn x).next = _
        rw [setNext_apart _ _ _ _ (apart_symm (hinit_rn x hx))]
        exact congrArg freeNode.next (hfar x (hinit_t x hx) (hrem x (by simp [hx])))
      · intro a ha
        show (setNext _ rn nn a).size = _
        rcases List.mem_append.mp ha with ha | ha
        · rw [setNext_apart _ _ _ _ (apart_symm (hinit_rn a ha))]
          exact congrArg freeNode.size (hfar a (hinit_t a ha) (hrem a (by simp [ha])))
        · have : a = rn := by simpa using ha
          subst this
          rw [setNext_size_self]
          exact congrArg freeNode.size (hfar a hrt hrnn)
    · have hrun : getmem fuel P size s = .ok (addW t P.NODESIZE,
          { s with mem := setNext s.mem rn (s.mem t).next }) := by
        unfold getmem
        have hns : ¬ (sz ≤ (s.mem t).size ∧
            addW (addW sz P.NODESIZE) P.MINCHUNK ≤ (s.mem t).size) := fun h => hsplit h.2
        simp only [hpos, ↓reduceIte, hsz, hfl0, bind, Except.bind, pure, Except.pure, hhead,
          and_false, hscan, hrn0, rdNext_ne, hrnt, ht0, rdSize_ne, ne_eq, not_false_eq_true,
          ge_iff_le, hns, wrNext_ne]
      refine ⟨_, _, hrun, isSeg_redirect init s.freelist rn t hseg hrn_init (fun x hx => ?_),
        ?_, rfl, rfl⟩
      · show (setNext _ rn _ x).next = _
        rw [setNext_apart _ _ _ _ (apart_symm (hinit_rn x hx))]
      · intro a ha
        show (setNext _ rn _ a).size = _
        rcases List.mem_append.mp ha with ha | ha
        · rw [setNext_apart _ _ _ _ (apart_symm (hinit_rn a ha))]
        · have : a = rn := by simpa using ha
          subst this
          rw [setNext_size_self]

/-- In a list whose headers lie at increasing addresses and share no byte, the
remainder header of a block, when its address does not wrap around, shares no
byte with a node that precedes the block. -/
theorem remainder_apart_front (P : Params) (pre : List Nat) (t : Nat)
    (sz : Nat) (hs : spaced (pre ++ [t])) (hW : t + P.NODESIZE + sz + 1 < W) :
    ∀ a ∈ pre, apart a (addW (addW (addW t P.NODESIZE) sz) 1) := by
  have e1 : addW t P.NODESIZE = t + P.NODESIZE := addW_eq _ _ (by omega)
  have e2 : addW (t + P.NODESIZE) sz = t + P.NODESIZE + sz := addW_eq _ _ (by omega)
  have e3 : addW (t + P.NODESIZE + sz) 1 = t + P.NODESIZE + sz + 1 := addW_eq _ _ hW
  rw [e1, e2, e3]
  intro a hmem
  have := (List.pairwise_append.mp hs).2.2 a hmem t (List.mem_cons_self _ _)
  exact Or.inl (by omega)

/-- The arithmetic of `splitNode` when nothing wraps around. -/
theorem splitNode_exact (P : Params) (m : Memory) (a c sz : Nat) (ha : a ≠ 0)
    (hc : (m a).size = c) (hfit : sz + P.NODESIZE + 1 ≤ c) (hW : a + P.NODESIZE + c < W) :
    splitNode P m a sz =
      .ok (makeNewNode m (c - sz - P.NODESIZE - 1) (m a).next (a + P.NODESIZE + sz + 1)) := by
  have h1 : subW c sz = c - sz := subW_eq _ _ (by omega) (by omega)
  have h2 : subW (c - sz) P.NODESIZE = c - sz - P.NODESIZE := subW_eq _ _ (by omega) (by omega)
  have h3 : subW (c - sz - P.NODESIZE) 1 = c - sz - P.NODESIZE - 1 :=
    subW_eq _ _ (by omega) (by omega)
  have h4 : addW a P.NODESIZE = a + P.NODESIZE := addW_eq _ _ (by omega)
  have h5 : addW (a + P.NODESIZE) sz = a + P.NODESIZE + sz := addW_eq _ _ (by omega)
  have h6 : addW (a + P.NODESIZE + sz) 1 = a + P.NODESIZE + sz + 1 := addW_eq _ _ (by omega)
  simp [splitNode, ha, hc, h1, h2, h3, h4, h5, h6, bind, Except.bind, pure, Except.pure]

theorem getmem_split_head (fuel : Nat) (P : Params) (size : Nat) (s : State) (a c : Nat)
    (h1 : 1 ≤ size) (h16 : size % 16 = 0) (ha : a ≠ 0) (hfl : s.freelist = a)
    (hc : (s.mem a).size = c) (hfit : size + P.NODESIZE + P.MINCHUNK ≤ c)
    (hmin : 1 ≤ P.MINCHUNK) (hW : a + P.NODESIZE + c < W) :
    ∃ s' : State, getmem fuel P size s = .ok (a + P.NODESIZE, s') ∧
      s'.freelist = a + P.NODESIZE + size + 1 ∧ (s'.mem a).size = size ∧
      (s'.mem a).next = a + P.NODESIZE + size + 1 ∧
      (s'.mem (a + P.NODESIZE + size + 1)).size = c - size - P.NODESIZE - 1 ∧
      (s'.mem (a + P.NODESIZE + size + 1)).next = (s.mem a).next := by
  have hr : roundSize size = size := by simp [roundSize, h16]
  have hsp := splitNode_exact P s.mem a c size ha hc (by omega) hW
  have hne : a + P.NODESIZE + size + 1 ≠ 0 := by omega
  have hap : apart a (a + P.NODESIZE + size + 1) := Or.inl (by omega)
  have e1 : addW a P.NODESIZE = a + P.NODESIZE := addW_eq _ _ (by omega)
  have e2 : addW (addW size P.NODESIZE) P.MINCHUNK = size + P.NODESIZE + P.MINCHUNK := by
    rw [addW_eq size P.NODESIZE (by omega), addW_eq (size + P.NODESIZE) P.MINCHUNK (by omega)]
  have hsz : size ≤ c := by omega
  have hrun : getmem fuel P size s = .ok (a + P.NODESIZE,
      { s with
        mem := setNext (setSize (makeNewNode s.mem (c - size - P.NODESIZE - 1) (s.mem a).next
          (a + P.NODESIZE + size + 1)).1 a size) a (a + P.NODESIZE + size + 1),
        freelist := a + P.NODESIZE + size + 1 }) := by
    unfold getmem
    simp only [show ¬ size ≤ 0 by omega, ↓reduceIte, hr, hfl, ha, bind, Except.bind, pure,
      Except.pure, ne_eq, not_false_eq_true, hc, ge_iff_le, hsz, and_self, e1, e2, hfit, hsp,
      wrSize_ne, wrNext_ne, makeNewNode_snd]
  refine ⟨_, hrun, rfl, ?_, ?_, ?_, ?_⟩
  · show (setNext (setSize _ a size) a _ a).size = size
    rw [setNext_size_self, setSize_size_self, Nat.mod_eq_of_lt (by omega)]
  · show (setNext (setSize _ a size) a _ a).next = _
    rw [setNext_next_self, Nat.mod_eq_of_lt (by omega)]
  · show (setNext (setSize _ a size) a _ _).size = _
    rw [setNext_apart _ _ _ _ hap, setSize_apart _ _ _ _ hap, makeNewNode_size_self _ _ _ _ hne,
      Nat.mod_eq_of_lt (by omega)]
  · show (setNext (setSize _ a size) a _ _).next = _
    rw [setNext_apart _ _ _ _ hap, setSize_apart _ _ _ _ hap, makeNewNode_next_self _ _ _ _ hne,
      Nat.mod_eq_of_lt (next_lt _ _)]

theorem getmem_split_next (fuel : Nat) (P : Params) (size : Nat) (s : State) (rn a c : Nat)
    (h1 : 1 ≤ size) (h16 : size % 16 = 0) (hfl : s.freelist ≠ 0)
    (hhead : ¬ size ≤ (s.mem s.freelist).size)
    (hscan : getNextAvailableNode fuel s size = .ok rn) (hrn : rn ≠ 0)
    (hnext : (s.mem rn).next = a) (ha : a ≠ 0)
    (hc : (s.mem a).size = c) (hfit : size + P.NODESIZE + P.MINCHUNK ≤ c)
    (hmin : 1 ≤ P.MINCHUNK) (hN : 16 ≤ P.NODESIZE) (hW : a + P.NODESIZE + c < W)
    (hout : rn + 16 ≤ a ∨ a + P.NODESIZE + c ≤ rn) :
    ∃ s' : State, getmem fuel P size s = .ok (a + P.NODESIZE, s') ∧
      s'.freelist = s.freelist ∧ (s'.mem rn).next = a + P.NODESIZE + size + 1 ∧
      (s'.mem a).size = size ∧
      (s'.mem (a + P.NODESIZE + size + 1)).size = c - size - P.NODESIZE - 1 ∧
      (s'.mem (a + P.NODESIZE + size + 1)).next = (s.mem a).next := by
  have hr : roundSize size = size := by simp [roundSize, h16]
  have hne : a + P.NODESIZE + size + 1 ≠ 0 := by omega
  have hap : apart a (a + P.NODESIZE + size + 1) := Or.inl (by omega)
  have hap1 : apart a rn := by unfold apart; omega
  have hap2 : apart (a + P.NODESIZE + size + 1) rn := by unfold apart; omega
  have e1 : addW a P.NODESIZE = a + P.NODESIZE := addW_eq _ _ (by omega)
  have e2 : addW (addW size P.NODESIZE) P.MINCHUNK = size + P.NODESIZE + P.MINCHUNK := by
    rw [addW_eq size P.NODESIZE (by omega), addW_eq (size + P.NODESIZE) P.MINCHUNK (by omega)]
  have e3 : addW (addW (addW a P.NODESIZE) size) 1 = a + P.NODESIZE + size + 1 := by
    rw [e1, addW_eq (a + P.NODESIZE) size (by omega),
      addW_eq (a + P.NODESIZE + size) 1 (by omega)]
  have e4 : subW (subW (subW c size) P.NODESIZE) 1 = c - size - P.NODESIZE - 1 := by
    rw [subW_eq c size (by omega) (by omega),
      subW_eq (c - size) P.NODESIZE (by omega) (by omega),
      subW_eq (c - size - P.NODESIZE) 1 (by omega) (by omega)]
  have hsz : size ≤ c := by omega
  have hrun := getmem_split_next_run fuel P size size s rn a h1 hr hfl hhead hscan hrn hnext ha
    (by rw [hc]; exact hsz) (by rw [hc, e2]; exact hfit) hap1 (by rw [e3]; exact hap2)
  rw [e3, e1, hc, e4] at hrun
  refine ⟨_, hrun, rfl, ?_, ?_, ?_, ?_⟩
  · show (setNext _ rn _ rn).next = _
    rw [setNext_next_self, Nat.mod_eq_of_lt (by omega)]
  · show (setNext (setNext (setSize _ a size) a _) rn _ a).size = size
    rw [setNext_apart _ _ _ _ (apart_symm hap1), setNext_size_self, setSize_size_self,
      Nat.mod_eq_of_lt (by omega)]
  · show (setNext (setNext (setSize _ a size) a _) rn _ _).size = _
    rw [setNext_apart _ _ _ _ (apart_symm hap2), setNext_apart _ _ _ _ hap,
      setSize_apart _ _ _ _ hap, makeNewNode_size_self _ _ _ _ hne, Nat.mod_eq_of_lt (by omega)]
  · show (setNext (setNext (setSize _ a size) a _) rn _ _).next = _
    rw [setNext_apart _ _ _ _ (apart_symm hap2), setNext_apart _ _ _ _ hap,
      setSize_apart _ _ _ _ hap, makeNewNode_next_self _ _ _ _ hne,
      Nat.mod_eq_of_lt (next_lt _ _)]

/-- The coalescing pass never finishes on a chain that ends in a node linked to
itself: whatever the number of iterations allowed, it is still running. -/
theorem combineFreeBlockLoop_lasso (P : Params) : ∀ (fuel : Nat) (pre : List Nat) (m : Memory)
    (c l : Nat), isSeg m c pre l → l ≠ 0 → (m l).next = l → spaced (pre ++ [l]) →
    combineFreeBlockLoop P fuel m c = .error .outOfFuel
  | 0, _, _, _, _, _, _, _, _ => rfl
  | f + 1, [], m, c, l, hseg, hl0, hn, _ => by
    have hcl : c = l := hseg
    subst hcl
    have hlW : c < W := hn ▸ next_lt m c
    by_cases hadj : addW (addW c P.NODESIZE) (m c).size = c
    · have hr1 : (setNext m c c c).size = (m c).size := setNext_size_self _ _ _
      have ih := combineFreeBlockLoop_lasso P f []
        (setSize (setNext m c c) c (addW (addW (m c).size P.NODESIZE) (m c).size)) c c rfl hl0
        (by rw [setSize_next_self, setNext_next_self, Nat.mod_eq_of_lt hlW])
        (List.pairwise_singleton _ _)
      simp [combineFreeBlockLoop, isAdjacent, hl0, hn, hadj, hr1, ih, bind, Except.bind, pure,
        Except.pure]
    · have ih := combineFreeBlockLoop_lasso P f [] m c c rfl hl0 hn (List.pairwise_singleton _ _)
      simp [combineFreeBlockLoop, isAdjacent, hl0, hn, hadj, ih, bind, Except.bind, pure,
        Except.pure]
  | f + 1, y :: pre', m, c, l, hseg, hl0, hn, hs => by
    obtain ⟨hcy, hy0, hseg'⟩ := hseg
    subst hcy
    unfold spaced at hs
    have hs0 : ((c :: pre') ++ [l]).Pairwise (fun a b => a + 16 ≤ b) := hs
    rw [List.cons_append, List.pairwise_cons] at hs0
    obtain ⟨hcl, hs'⟩ := hs0
    generalize hd : (m c).next = d at hseg'
    -- the successor `d` of `c` is a node of the chain
    have hdprop : d ≠ 0 ∧ d ∈ pre' ++ [l] ∧ isSeg m (m d).next pre'.tail l := by
      cases pre' with
      | nil =>
        have : d = l := hseg'
        subst this
        exact ⟨hl0, by simp, hn⟩
      | cons d' pre'' =>
        obtain ⟨k1, k2, k3⟩ := hseg'
        subst k1
        exact ⟨k2, by simp, k3⟩
    obtain ⟨hd0, hdmem, hsegt⟩ := hdprop
    have hcd16 : c + 16 ≤ d := hcl d hdmem
    have hlt : c < d := by omega
    by_cases hadj : addW (addW c P.NODESIZE) (m c).size = d
    · set m2 : Memory := setSize (setNext m c (m d).next) c
        (addW (addW (m c).size P.NODESIZE) (m d).size) with hm2
      have hr1 : (setNext m c (m d).next c).size = (m c).size := setNext_size_self _ _ _
      have hr2 : (setNext m c (m d).next d).size = (m d).size := by
        rw [setNext_apart _ _ _ _ (Or.inl hcd16)]
      have hstep : combineFreeBlockLoop P (f + 1) m c = combineFreeBlockLoop P f m2 c := by
        simp [combineFreeBlockLoop, isAdjacent, hy0, hd, hd0, hlt, hadj, bind, Except.bind, pure,
          Except.pure, hm2, hr1, hr2]
      have hfar : ∀ x, c + 16 ≤ x → m2 x = m x := fun x hx => by
        rw [hm2, setSize_apart _ _ _ _ (Or.inl hx), setNext_apart _ _ _ _ (Or.inl hx)]
      have htl : ∀ x ∈ pre'.tail, c + 16 ≤ x := fun x hx =>
        hcl x (List.mem_append_left _ (List.mem_of_mem_tail hx))
      have hl16 : c + 16 ≤ l := hcl l (by simp)
      have hnext2 : (m2 c).next = (m d).next := by
        rw [hm2, setSize_next_self, setNext_next_self, Nat.mod_eq_of_lt (next_lt m d)]
      have hseg2 : isSeg m2 c (c :: pre'.tail) l := by
        refine ⟨rfl, hy0, ?_⟩
        rw [hnext2]
        exact isSeg_congr pre'.tail _ _ (fun x hx => by rw [hfar x (htl x hx)]) hsegt
      have hs2 : spaced ((c :: pre'.tail) ++ [l]) := by
        unfold spaced
        rw [List.cons_append, List.pairwise_cons]
        refine ⟨fun x hx => ?_, ?_⟩
        · rcases List.mem_append.mp hx with h | h
          · exact htl x h
          · have : x = l := by simpa using h
            rw [this]; exact hl16
        · exact List.Pairwise.sublist
            (List.Sublist.append_right (List.tail_sublist pre') [l]) hs'
      rw [hstep]
      exact combineFreeBlockLoop_lasso P f (c :: pre'.tail) m2 c l hseg2 hl0
        (by rw [hfar l hl16]; exact hn) hs2
    · have hstep : combineFreeBlockLoop P (f + 1) m c = combineFreeBlockLoop P f m d := by
        simp [combineFreeBlockLoop, isAdjacent, hy0, hd, hd0, hlt, hadj, bind, Except.bind,
          pure, Except.pure]
      rw [hstep]
      exact combineFreeBlockLoop_lasso P f pre' m d l hseg' hl0 hn hs'

/-- The scan of `insertFreelist` for an address that is already a node of the
increasing list is still running when the iterations allowed do not exceed the
number of nodes after the head. -/
theorem insertFreelistScan_short (addr size : Nat) (m : Memory) :
    ∀ (rest : List Nat) (c fuel : Nat),
    isList m c (c :: rest) → (c :: rest).Pairwise (· < ·) → (addr ≤ c ∨ addr ∈ rest) →
    fuel ≤ rest.length →
    insertFreelistScan addr size fuel m c = .error .outOfFuel := by
  intro rest
  induction rest with
  | nil =>
    intro c fuel _ _ _ hf
    have : fuel = 0 := by simpa using hf
    subst this
    rfl
  | cons d rest ih =>
    intro c fuel hl hs hpos hf
    cases fuel with
    | zero => rfl
    | succ f =>
      obtain ⟨_, hc, hcd, hd, hn⟩ := hl
      have hf' : f ≤ rest.length := by simp at hf; omega
      rw [List.pairwise_cons] at hs
      obtain ⟨hcl, hs'⟩ := hs
      have hlt : c < d := hcl d (List.mem_cons_self _ _)
      have hge : ∀ x ∈ d :: rest, d ≤ x := by
        intro x hx
        rcases List.mem_cons.mp hx with rfl | hx
        · exact le_refl _
        · exact le_of_lt ((List.pairwise_cons.mp hs').1 x hx)
      have hno : ¬ (c < addr ∧ addr < d) := by
        rintro ⟨h1, h2⟩
        rcases hpos with h | h
        · omega
        · have := hge addr h
          omega
      have hpos' : addr ≤ d ∨ addr ∈ rest := by
        rcases hpos with h | h
        · exact Or.inl (by omega)
        · rcases List.mem_cons.mp h with rfl | h
          · exact Or.inl (le_refl _)
          · exact Or.inr h
      have hstep : insertFreelistScan addr size (f + 1) m c
          = insertFreelistScan addr size f m d := by
        simp [insertFreelistScan, hc, hcd, hd, hno, bind, Except.bind, pure, Except.pure]
      rw [hstep]
      exact ih d f ⟨rfl, hd, hn⟩ hs' hpos' hf'

/-- Freeing a header that is the last node of the free list never returns:
the insertion links the node to itself and the coalescing pass circles on it. -/
theorem freemem_last_diverges (P : Params) (s : State) (pre : List Nat) (p : Nat) (hp : p ≠ 0)
    (hl : isList s.mem s.freelist (pre ++ [subW p P.NODESIZE]))
    (hs : spaced (pre ++ [subW p P.NODESIZE]))
    (hnode : subW (subW p P.NODESIZE) P.NODESIZE ≠ 0) :
    ∀ fuel, freemem fuel P p s = .error .outOfFuel := by
  intro fuel
  have haW : subW p P.NODESIZE < W := subW_lt _ _
  generalize haddr : subW p P.NODESIZE = addr at *
  generalize hnp : subW addr P.NODESIZE = nodeP at *
  generalize hsize : (s.mem nodeP).size = size
  have hslt := spaced_lt hs
  obtain ⟨hseg, hla⟩ := isList_append pre _ addr [] hl
  have ha : addr ≠ 0 := hla.2.1
  obtain ⟨c, rest, hxs⟩ : ∃ c rest, pre ++ [addr] = c :: rest := by
    cases pre with
    | nil => exact ⟨addr, [], rfl⟩
    | cons c pre' => exact ⟨c, pre' ++ [addr], rfl⟩
  have hmem : addr ∈ c :: rest := by rw [← hxs]; simp
  have hl' := hl
  rw [hxs] at hl' hslt
  obtain ⟨hc, hc0, hn⟩ := hl'
  have hfl : s.freelist ≠ 0 := hc ▸ hc0
  have hnlt : ¬ addr < c := by
    rcases List.mem_cons.mp hmem with h | h
    · omega
    · have := (List.pairwise_cons.mp hslt).1 addr h
      omega
  have hpos : addr ≤ c ∨ addr ∈ rest := by
    rcases List.mem_cons.mp hmem with h | h
    · exact Or.inl (le_of_eq h)
    · exact Or.inr h
  have hfree : freemem fuel P p s = insertFreelist fuel P addr size s := by
    simp [freemem, hp, haddr, hnp, hnode, hsize, bind, Except.bind]
  rw [hfree]
  unfold insertFreelist insertFreelistLink
  simp only [hfl, ↓reduceIte]
  simp only [hc, hnlt, ↓reduceIte]
  by_cases hfuel : rest.length < fuel
  · obtain ⟨l, hrun, hlast⟩ := insertFreelistScan_listed addr size s.mem rest c fuel
      ⟨rfl, hc0, hn⟩ hslt hpos hfuel
    have hl_eq : l = addr := by
      rw [← hxs] at hlast
      simpa using hlast.symm
    subst hl_eq
    -- after the stores the node `l` is linked to itself
    have hnext : (setNext (makeNewNode s.mem size 0 l).1 l l l).next = l := by
      rw [setNext_next_self, Nat.mod_eq_of_lt haW]
    have hseg2 : isSeg (setNext (makeNewNode s.mem size 0 l).1 l l) c pre l := by
      rw [← hc]
      refine isSeg_congr pre _ _ (fun x hx => ?_) hseg
      have h16 : x + 16 ≤ l := (List.pairwise_append.mp hs).2.2 x hx l (by simp)
      rw [setNext_apart _ _ _ _ (Or.inr h16), makeNewNode_apart _ _ _ _ _ (Or.inr h16)]
    have hloop := combineFreeBlockLoop_lasso P fuel pre
      (setNext (makeNewNode s.mem size 0 l).1 l l) c l hseg2 ha hnext hs
    simp only [hrun, bind, Except.bind, pure, Except.pure, wrNext_ne ha, makeNewNode_snd,
      combineFreeBlock, hc, hc0, ↓reduceIte, hloop]
  · have hrun := insertFreelistScan_short addr size s.mem rest c fuel ⟨rfl, hc0, hn⟩ hslt hpos
      (by omega)
    simp only [hrun, bind, Except.bind]

/-- Freeing into an empty free list never returns: the new node becomes the
head, is then linked to itself, and the coalescing pass circles on it. -/
theorem freemem_empty_diverges (P : Params) (s : State) (p : Nat) (hp : p ≠ 0)
    (hfl : s.freelist = 0) (ha : subW p P.NODESIZE ≠ 0)
    (hnode : subW (subW p P.NODESIZE) P.NODESIZE ≠ 0) :
    ∀ fuel, freemem fuel P p s = .error .outOfFuel := by
  intro fuel
  have haW : subW p P.NODESIZE < W := subW_lt _ _
  generalize haddr : subW p P.NODESIZE = addr at *
  generalize hnp : subW addr P.NODESIZE = nodeP at *
  generalize hsize : (s.mem nodeP).size = size
  have hfree : freemem fuel P p s = insertFreelist fuel P addr size s := by
    simp [freemem, hp, haddr, hnp, hnode, hsize, bind, Except.bind]
  rw [hfree]
  have hn0 : ((makeNewNode s.mem size 0 addr).1 addr).next = 0 := by
    rw [makeNewNode_next_self _ _ _ _ ha]; rfl
  cases fuel with
  | zero =>
    simp [insertFreelist, insertFreelistLink, hfl, ha, makeNewNode_snd, insertFreelistScan,
      bind, Except.bind, pure, Except.pure]
  | succ f =>
    have hnext : (setNext (makeNewNode (makeNewNode s.mem size 0 addr).1 size 0 addr).1
        addr addr addr).next = addr := by
      rw [setNext_next_self, Nat.mod_eq_of_lt haW]
    have hloop := combineFreeBlockLoop_lasso P (f + 1) []
      (setNext (makeNewNode (makeNewNode s.mem size 0 addr).1 size 0 addr).1 addr addr)
      addr addr rfl ha hnext (List.pairwise_singleton _ _)
    simp [insertFreelist, insertFreelistLink, hfl, ha, makeNewNode_snd, insertFreelistScan, hn0,
      bind, Except.bind, pure, Except.pure, combineFreeBlock, hloop]

/-! ## Runs of the code on concrete inputs -/

/-- C1: on a fresh allocator whose host grants the region at 4096, two
consecutive calls `getmem(8192)` with no `freemem` in between both return the
address 4112: the head block is granted whole but stays in the free list. -/
theorem getmem_grants_same_block_twice :
    (do let (a, s1) ← getmem 10 refParams 8192 (fresh [4096])
        let (b, s2) ← getmem 10 refParams 8192 s1
        pure (a, freeBlocks s1.mem 10 s1.freelist, b,
              freeBlocks s2.mem 10 s2.freelist))
      = (Except.ok (4112, [(4096, 8192)], 4112, [(4096, 8192)]) :
          Except Fault (Nat × List (Nat × Nat) × Nat × List (Nat × Nat))) := by
  rfl

/-- C2: with the host region at the 16-aligned address 4096 and a 16-byte
header, the second of two calls `getmem(16)` returns 4145, which is not
divisible by 16 (the remainder header was placed one byte too far). -/
theorem getmem_second_result_misaligned :
    4096 % 16 = 0 ∧ refParams.NODESIZE % 16 = 0 ∧
    (do let (a, s1) ← getmem 10 refParams 16 (fresh [4096])
        let (b, _) ← getmem 10 refParams 16 s1
        pure (a, freeBlocks s1.mem 10 s1.freelist, b, b % 16))
      = (Except.ok (4112, [(4129, 8159)], 4145, 1) :
          Except Fault (Nat × List (Nat × Nat) × Nat × Nat)) := by
  refine ⟨rfl, rfl, rfl⟩

/-- C4: after `getmem(16)` on a fresh allocator (region at 20000), the call
`getmem(8192)` grows the pool by a region at the lower address 4096; the host
call succeeds and the new 8192-byte block heads the free list, yet `getmem`
returns `NULL`, because the second scan never looks at the head. -/
theorem getmem_null_although_growth_succeeded :
    (do let (a, s1) ← getmem 10 refParams 16 (fresh [20000, 4096])
        let (b, s2) ← getmem 10 refParams 8192 s1
        pure (a, freeBlocks s1.mem 10 s1.freelist, s1.host, b,
              freeBlocks s2.mem 10 s2.freelist, s2.totalmalloc, s2.host))
      = (Except.ok (20016, [(20033, 8159)], [4096], 0,
            [(4096, 8192), (20033, 8159)], 16416, []) :
          Except Fault (Nat × List (Nat × Nat) × List Nat × Nat × List (Nat × Nat) ×
            Nat × List Nat)) := by
  rfl

/-- C5: with the free list holding the single block `(20033, 8159)` and a host
that refuses the growth, `getmem(8192)` does not return `NULL`: `addMem` sets
`freelist = NULL` and the following scan dereferences it. -/
theorem getmem_faults_on_growth_failure :
    (do let (a, s1) ← getmem 10 refParams 16 (fresh [20000])
        pure (a, freeBlocks s1.mem 10 s1.freelist, s1.host))
      = (Except.ok (20016, [(20033, 8159)], []) :
          Except Fault (Nat × List (Nat × Nat) × List Nat)) ∧
    (do let (_, s1) ← getmem 10 refParams 16 (fresh [20000])
        let (b, _) ← getmem 10 refParams 8192 s1
        pure b)
      = (Except.error Fault.nullDeref : Except Fault Nat) := by
  refine ⟨rfl, rfl⟩

/-- C7: the request `-5`, which reaches `getmem` as `2 ^ 64 - 5`, is rounded to
`0` by the wrapping rounding step and then served: on a fresh allocator the
call returns the address 4112, obtains 8208 bytes from the host and leaves the
free list `[(4113, 8175)]`. -/
theorem getmem_negative_five_is_served :
    roundSize (2 ^ 64 - 5) = 0 ∧
    (do let (a, s1) ← getmem 10 refParams (2 ^ 64 - 5) (fresh [4096])
        pure (a, freeBlocks s1.mem 10 s1.freelist, s1.totalmalloc, s1.host))
      = (Except.ok (4112, [(4113, 8175)], 8208, []) :
          Except Fault (Nat × List (Nat × Nat) × Nat × List Nat)) := by
  refine ⟨rfl, rfl⟩

/-- C8: in the state reached by `getmem(16)` on a fresh allocator, the call
`getmem(64)` succeeds without growing the pool, and freeing its result at once
leaves two free blocks with 8078 free bytes where there was one block with
8159 bytes.  Over a memory in which the place `freemem` reads the capacity from
(the word at 4113) happens to hold the true capacity 64, the outcome is still
two blocks, now with 8142 bytes. -/
theorem roundtrip_64_not_restored :
    (do let (_, s0) ← getmem 10 refParams 16 (fresh [4096])
        let (p, s1) ← getmem 10 refParams 64 s0
        let s2 ← freemem 10 refParams p s1
        pure (freeStats s0.mem 10 s0.freelist, s0.totalmalloc, p, s1.totalmalloc,
              freeBlocks s2.mem 10 s2.freelist, freeStats s2.mem 10 s2.freelist))
      = (Except.ok ((8159, 1), 8208, 4145, 8208, [(4129, 0), (4210, 8078)], (8078, 2)) :
          Except Fault ((Nat × Nat) × Nat × Nat × Nat × List (Nat × Nat) × (Nat × Nat))) ∧
    (do let (_, s0) ← getmem 10 refParams 16 (freshIn (pokeMem 4113 64) [4096])
        let (p, s1) ← getmem 10 refParams 64 s0
        let s2 ← freemem 10 refParams p s1
        pure (freeStats s0.mem 10 s0.freelist, s0.totalmalloc, p, s1.totalmalloc,
              freeBlocks s2.mem 10 s2.freelist, freeStats s2.mem 10 s2.freelist))
      = (Except.ok ((8159, 1), 8208, 4145, 8208, [(4129, 64), (4210, 8078)], (8142, 2)) :
          Except Fault ((Nat × Nat) × Nat × Nat × Nat × List (Nat × Nat) × (Nat × Nat))) := by
  refine ⟨rfl, rfl⟩

/-- C9: Scenario C on a fresh allocator (region at 4096): `A = getmem(160)`,
`B = getmem(160)`, then both freed, in either order.  The free list ends with
three nodes; the headers of `A` (4096) and `B` (4273) stay separate.  They
also stay separate over a memory in which the places `freemem` reads the
capacities from (the words at 4080 and 4257) happen to hold the true capacity
160. -/
theorem scenarioC_blocks_not_merged :
    (do let (a, s1) ← getmem 10 refParams 160 (fresh [4096])
        let (b, s2) ← getmem 10 refParams 160 s1
        let s3 ← freemem 10 refParams a s2
        let s4 ← freemem 10 refParams b s3
        let t3 ← freemem 10 refParams b s2
        let t4 ← freemem 10 refParams a t3
        pure (a, b, freeBlocks s2.mem 10 s2.freelist,
              freeBlocks s4.mem 10 s4.freelist, freeBlocks t4.mem 10 t4.freelist))
      = (Except.ok (4112, 4289, [(4450, 7838)],
            [(4096, 0), (4273, 0), (4450, 7838)],
            [(4096, 0), (4273, 0), (4450, 7838)]) :
          Except Fault (Nat × Nat × List (Nat × Nat) × List (Nat × Nat) × List (Nat × Nat))) ∧
    (do let (a, s1) ← getmem 10 refParams 160 (freshIn (wr64 (pokeMem 4080 160) 4257 160) [4096])
        let (b, s2) ← getmem 10 refParams 160 s1
        let s3 ← freemem 10 refParams a s2
        let s4 ← freemem 10 refParams b s3
        let t3 ← freemem 10 refParams b s2
        let t4 ← freemem 10 refParams a t3
        pure (a, b, freeBlocks s2.mem 10 s2.freelist,
              freeBlocks s4.mem 10 s4.freelist, freeBlocks t4.mem 10 t4.freelist))
      = (Except.ok (4112, 4289, [(4450, 7838)],
            [(4096, 160), (4273, 160), (4450, 7838)],
            [(4096, 160), (4273, 160), (4450, 7838)]) :
          Except Fault (Nat × Nat × List (Nat × Nat) × List (Nat × Nat) × List (Nat × Nat))) := by
  refine ⟨rfl, rfl⟩

/-! ## Properties that hold for every input -/

/-- C6: `getmem(0)` returns `NULL` and leaves the whole state unchanged: the
memory (links and capacities), `freelist`, `totalmalloc`, and the queue of host
answers, so the host allocator is not called. -/
theorem getmem_zero_no_effect (fuel : Nat) (P : Params) (s : State) :
    getmem fuel P 0 s = Except.ok (0, s) := by
  rfl

/-! ## Runs of the code on concrete inputs, continued -/

/-- C11: over a memory whose word at 4113 (inside the payload of the first
block) holds 100000, the valid calls `A = getmem(16)`, `B = getmem(16)`,
`freemem(B)`, `getmem(1008)` on a fresh allocator leave the free list
`5154 → 4162`, whose addresses are not increasing: `freemem` took the capacity
of `B` from the stale place 4113, and the split of that block put the remainder
header beyond the next node. -/
theorem order_invariant_broken :
    (do let (a, s1) ← getmem 10 refParams 16 (freshIn (pokeMem 4113 100000) [4096])
        let (b, s2) ← getmem 10 refParams 16 s1
        let s3 ← freemem 10 refParams b s2
        let (d, s4) ← getmem 10 refParams 1008 s3
        pure (a, b, freeBlocks s2.mem 10 s2.freelist, freeBlocks s3.mem 10 s3.freelist,
              d, freeBlocks s4.mem 10 s4.freelist))
      = (Except.ok (4112, 4145, [(4162, 8126)], [(4129, 100000), (4162, 8126)],
            4145, [(5154, 98975), (4162, 8126)]) :
          Except Fault (Nat × Nat × List (Nat × Nat) × List (Nat × Nat) × Nat ×
            List (Nat × Nat))) := by
  rfl

/-- C12: on a fresh allocator `p = getmem(16)` returns 4112 and leaves the
capacity 16 in the header at `p - NODESIZE = 4096`; `freemem(p)` then inserts
the node 4096 with the capacity found at `p - 2 * NODESIZE = 4080`: 0 over a
zero memory, 777 when that word holds 777. -/
theorem freemem_reads_capacity_below_header :
    (do let (p, s1) ← getmem 10 refParams 16 (fresh [4096])
        let s2 ← freemem 10 refParams p s1
        pure (p, (s1.mem (subW p refParams.NODESIZE)).size,
              freeBlocks s2.mem 10 s2.freelist))
      = (Except.ok (4112, 16, [(4096, 0), (4129, 8159)]) :
          Except Fault (Nat × Nat × List (Nat × Nat))) ∧
    (do let (p, s1) ← getmem 10 refParams 16 (freshIn (pokeMem 4080 777) [4096])
        let s2 ← freemem 10 refParams p s1
        pure (p, (s1.mem (subW p refParams.NODESIZE)).size,
              freeBlocks s2.mem 10 s2.freelist))
      = (Except.ok (4112, 16, [(4096, 777), (4129, 8159)]) :
          Except Fault (Nat × Nat × List (Nat × Nat))) := by
  refine ⟨rfl, rfl⟩

/-- C13: on the free list `(4096, 16), (4128, 32), (5000, 8)` the call
`getmem(16)` finds the head large enough and does not split it; it returns
`4096 + NODESIZE = 4112` and leaves the capacity 16, but the free-list head is
still 4096, not the former successor 4128: the granted block stays listed. -/
theorem whole_grant_keeps_head_listed :
    (threeBlockState.freelist, (threeBlockState.mem 4096).next) = (4096, 4128) ∧
    (do let (p, s1) ← getmem 4 refParams 16 threeBlockState
        pure (p, s1.freelist, freeBlocks s1.mem 10 s1.freelist))
      = (Except.ok (4112, 4096, [(4096, 16), (4128, 32), (5000, 8)]) :
          Except Fault (Nat × Nat × List (Nat × Nat))) := by
  refine ⟨rfl, rfl⟩

/-- C15: `addMem(8208)`, as called by `getmem(8208)` on a fresh allocator, asks
the host for `8224 + 16 = 8240` bytes, creates a block of capacity 8224 and
raises `totalmalloc` by 8240, where `max(8192, roundUp16(8208)) + NODESIZE` is
8224 and the capacity should be 8208.  For a request of at most 8192 bytes the
figures are 8208 and 8192. -/
theorem addMem_overshoots_multiple_of_16 :
    roundSize 8208 = 8208 ∧ max EXPAND_LIST_SIZE (roundSize 8208) + refParams.NODESIZE = 8224 ∧
    addMemTotalSize 8208 = 8224 ∧ addMemRequest refParams 8208 = 8240 ∧
    (do let s1 ← addMem 4 refParams 8208 (fresh [4096])
        pure (freeBlocks s1.mem 10 s1.freelist, s1.totalmalloc))
      = (Except.ok ([(4096, 8224)], 8240) : Except Fault (List (Nat × Nat) × Nat)) ∧
    (do let (p, s1) ← getmem 4 refParams 8208 (fresh [4096])
        pure (p, freeBlocks s1.mem 10 s1.freelist, s1.totalmalloc))
      = (Except.ok (4112, [(4096, 8224)], 8240) :
          Except Fault (Nat × List (Nat × Nat) × Nat)) ∧
    (do let s1 ← addMem 4 refParams 4000 (fresh [4096])
        pure (freeBlocks s1.mem 10 s1.freelist, s1.totalmalloc))
      = (Except.ok ([(4096, 8192)], 8208) : Except Fault (List (Nat × Nat) × Nat)) := by
  refine ⟨rfl, rfl, rfl, rfl, rfl, rfl, rfl⟩

/-- C16: for the free block at 4096 with capacity 8192 and successor `NULL`,
`splitNode(block, 16)` returns the header 4129 with capacity 8159, where
`4096 + NODESIZE + 16` is 4128 and `8192 - 16 - NODESIZE` is 8160. -/
theorem splitNode_one_byte_off :
    (4096 + refParams.NODESIZE + 16, 8192 - 16 - refParams.NODESIZE) = (4128, 8160) ∧
    (do let r ← splitNode refParams (pokeMem 4096 8192) 4096 16
        pure (r.2, (r.1 r.2).size, (r.1 r.2).next))
      = (Except.ok (4129, 8159, 0) : Except Fault (Nat × Nat × Nat)) := by
  refine ⟨rfl, rfl⟩

/-- C18: on a fresh allocator `p = getmem(8192)` returns 4112 and leaves the
granted block `(4096, 8192)` in the free list; the valid call `freemem(p)` then
does not complete, whatever the number of loop iterations allowed: the
insertion links the node 4096 to itself and `combineFreeBlock` circles on it. -/
theorem freemem_after_whole_grant_never_returns :
    (do let (p, s1) ← getmem 10 refParams 8192 (fresh [4096])
        pure (p, freeBlocks s1.mem 10 s1.freelist))
      = (Except.ok (4112, [(4096, 8192)]) : Except Fault (Nat × List (Nat × Nat))) ∧
    ∀ fuel : Nat,
      (do let (p, s1) ← getmem 10 refParams 8192 (fresh [4096])
          freemem fuel refParams p s1)
        = (Except.error Fault.outOfFuel : Except Fault State) := by
  refine ⟨rfl, fun fuel => ?_⟩
  obtain ⟨s1, h1, h2⟩ : ∃ s1 : State,
      getmem 10 refParams 8192 (fresh [4096]) = Except.ok (4112, s1) ∧
      isList s1.mem s1.freelist [4096] := ⟨_, rfl, rfl, by decide, rfl⟩
  rw [h1]
  show freemem fuel refParams 4112 s1 = _
  have e1 : subW 4112 refParams.NODESIZE = 4096 := by decide
  have e2 : subW 4096 refParams.NODESIZE = 4080 := by decide
  exact freemem_last_diverges refParams s1 [] 4112 (by decide) (by rw [e1]; exact h2)
    (by rw [e1]; exact List.pairwise_singleton _ _) (by rw [e1, e2]; decide) fuel

/-! ## Runs of the code on concrete inputs, continued -/

/-- C3: the rounding of `getmem` is as claimed (16 stays 16, 17 becomes 32), but
the capacity recorded in the header of a returned block can be smaller than the
request.  Over a memory whose word at 4113 (inside the payload of the first
block) holds 304, the valid calls `A = getmem(16)`, `B = getmem(16)`, eight
more `getmem(16)`, `freemem(B)`, `getmem(272)` and `p = getmem(4416)` on a
fresh allocator end with `p = 4442`, and the header of that block, at
`p - NODESIZE = 4426`, records the capacity 0.  `freemem(B)` took the capacity
304 for `B` from the stale place 4113; the split of that block put the
remainder header 4418 on top of the header 4426, so that unlinking 4426 stored
its `next`, which is `NULL`, over its own `size`. -/
theorem getmem_returns_block_with_capacity_zero :
    (roundSize 16 = 16 ∧ roundSize 17 = 32 ∧ roundSize 4416 = 4416) ∧
    (do let (a, s1) ← getmem 10 refParams 16 (freshIn (pokeMem 4113 304) [4096])
        let (b, s2) ← getmem 10 refParams 16 s1
        let s3 ← getmemTimes 10 refParams 16 8 s2
        let s4 ← freemem 10 refParams b s3
        let (q, s5) ← getmem 10 refParams 272 s4
        let (p, s6) ← getmem 10 refParams 4416 s5
        pure (a, b, freeBlocks s3.mem 10 s3.freelist, freeBlocks s4.mem 10 s4.freelist, q,
              freeBlocks s5.mem 10 s5.freelist, p,
              (s6.mem (subW p refParams.NODESIZE)).size, s6.host))
      = (Except.ok (4112, 4145, [(4426, 7862)], [(4129, 304), (4426, 7862)], 4145,
            [(4418, 15), (4426, 4426)], 4442, 0, []) :
          Except Fault (Nat × Nat × List (Nat × Nat) × List (Nat × Nat) × Nat ×
            List (Nat × Nat) × Nat × Nat × List Nat)) := by
  refine ⟨⟨rfl, rfl, rfl⟩, rfl⟩

/-! ## Properties that hold for free lists whose headers share no byte -/

end MemAlloc
